import Mathlib

/-!
Verification of the open-addressing hash map in `src/hash_map.h`.

The C++ class `HashMap<KeyType, ValueType, Hash>` is embedded shallowly with
`KeyType = ValueType = Nat` and an arbitrary hash function `Nat → Nat`.
The sentinel values `kNoValue = SIZE_MAX` and `kDeleted = SIZE_MAX - 1`
stored in the `size_t` array `place_` are represented by the constructors
`Slot.kNoValue` and `Slot.kDeleted`; an honest index `i` stored in `place_`
is `Slot.occ i`.

The C++ probing loop in `FindPlace` is potentially unbounded, and `Rebuild`
and `insert` are mutually recursive (via `MakeGoodBig`).  Both are embedded
with explicit bounds: `FindPlace` scans at most `place_.size()` cells (after
that many steps the scan has visited every cell and cycles, so the C++ loop
would run forever), returning `none` where the C++ code would diverge or hit
undefined behaviour, and every operation that may trigger a rebuild takes the
rebuild procedure as a parameter, with `RebuildF fuel` unfolding the mutual
recursion `fuel` levels deep.  Public operations are defined with
`RebuildF 1`, i.e. they return `none` if a rebuild would recursively trigger
a second rebuild; the development proves this never happens on reachable
states, so the embedding is exact there.
-/

set_option maxRecDepth 8192

namespace HashMapVerify

/-- Density constant `kDensity = 2` of the source. -/
def kDensity : Nat := 2

/-- Size-change constant `kSizeChange = kDensity * kDensity = 4` of the source. -/
def kSizeChange : Nat := kDensity * kDensity

/-- Content of one cell of the sparse array `place_`: `kNoValue` (empty cell,
`SIZE_MAX` in the source), `kDeleted` (tombstone, `SIZE_MAX - 1`), or `occ i`
(the cell holds the dense index `i` into `elements_`). -/
inductive Slot where
  | kNoValue : Slot
  | kDeleted : Slot
  | occ (i : Nat) : Slot
deriving DecidableEq, Repr

/-- State of a `HashMap<Nat, Nat, Hash>`: the hash function `hasher_`, the
dense sequence `elements_` of key-value pairs, the sparse array `place_`,
the reverse map `rev_place_`, and the counter `operations_complete_`. -/
structure HM where
  hasher : Nat → Nat
  elements : List (Nat × Nat)
  place : List Slot
  rev_place : List Nat
  operations_complete : Nat

/-- Exchange the entries at positions `i` and `j` (`std::swap(l[i], l[j])`);
identity if either index is out of range. -/
def listSwap {α : Type} (l : List α) (i j : Nat) : List α :=
  match l[i]?, l[j]? with
  | some a, some b => (l.set i b).set j a
  | _, _ => l

/-- Semantics of `std::vector<size_t>::resize(n)`: keep the first `n` entries
and value-initialise (to `0`) any newly created entries. -/
def listResize (l : List Nat) (n : Nat) : List Nat :=
  l.take n ++ List.replicate (n - l.length) 0

/-- The probing loop of `FindPlace`, with explicit fuel.  The index `i` is
reduced modulo the table size exactly the way the loop head does
(`if (i == place_.size()) i = 0;`), then the cell is inspected: an empty cell
or an occupied cell whose key equals the query stops the scan, otherwise the
scan moves one cell to the right.  Out-of-range accesses (undefined behaviour
in the source) and fuel exhaustion (divergence in the source) give `none`. -/
def findPlaceAux (pl : List Slot) (el : List (Nat × Nat)) (key : Nat) :
    Nat → Nat → Option Nat
  | 0, _ => none
  | fuel + 1, i =>
    let i' := if i = pl.length then 0 else i
    match pl[i']? with
    | none => none
    | some Slot.kNoValue => some i'
    | some Slot.kDeleted => findPlaceAux pl el key fuel (i' + 1)
    | some (Slot.occ p) =>
      match el[p]? with
      | none => none
      | some e => if e.1 = key then some i' else findPlaceAux pl el key fuel (i' + 1)

/-- `HashMap::FindPlace(key)`: start the scan at `hasher_(key) % place_.size()`.
Fuel `place_.size()` lets the scan inspect every cell of the table once. -/
def FindPlace (hm : HM) (key : Nat) : Option Nat :=
  findPlaceAux hm.place hm.elements key hm.place.length (hm.hasher key % hm.place.length)

/-- `HashMap::MakeGoodBig()`, parameterised by the rebuild procedure: rebuild
when `operations_complete_ * kDensity >= place_.size()`. -/
def MakeGoodBigW (rebuild : HM → Option HM) (hm : HM) : Option HM :=
  if hm.place.length ≤ hm.operations_complete * kDensity then rebuild hm else some hm

/-- `HashMap::AddElement(id, value)`, parameterised by the rebuild procedure:
increment `operations_complete_`, write the new dense index into `place_[id]`,
record the slot in `rev_place_`, append the entry, then run the grow check. -/
def AddElementW (rebuild : HM → Option HM) (hm : HM) (id : Nat) (value : Nat × Nat) :
    Option HM :=
  MakeGoodBigW rebuild
    { hm with
      operations_complete := hm.operations_complete + 1,
      place := hm.place.set id (Slot.occ hm.elements.length),
      rev_place := hm.rev_place.set hm.elements.length id,
      elements := hm.elements ++ [value] }

/-- `HashMap::insert(value)`, parameterised by the rebuild procedure: resolve
the key; only an empty cell triggers `AddElement` (an occupied cell makes the
call a no-op, a deleted cell cannot be returned by `FindPlace`). -/
def insertW (rebuild : HM → Option HM) (hm : HM) (value : Nat × Nat) : Option HM :=
  match FindPlace hm value.1 with
  | none => none
  | some id =>
    if hm.place[id]? = some Slot.kNoValue then AddElementW rebuild hm id value
    else some hm

/-- Body of `HashMap::Rebuild()`, parameterised by the rebuild procedure used
by the re-insertions: resize `place_` to `1` (empty table) or
`elements_.size() * kSizeChange`, resize `rev_place_` to match, fill `place_`
with `kNoValue`, reset `operations_complete_`, move the entries out, and
re-insert each through the normal `insert` path. -/
def RebuildW (rebuild : HM → Option HM) (hm : HM) : Option HM :=
  let m' := if hm.elements.length = 0 then 1 else hm.elements.length * kSizeChange
  List.foldlM (fun acc e => insertW rebuild acc e)
    { hm with
      place := List.replicate m' Slot.kNoValue,
      rev_place := listResize hm.rev_place m',
      operations_complete := 0,
      elements := [] }
    hm.elements

/-- `HashMap::Rebuild()` with the mutual recursion `insert ↔ Rebuild`
unfolded to depth `fuel`: `RebuildF (fuel + 1)` is a rebuild whose
re-insertions may trigger up to `fuel` further nested rebuilds. -/
def RebuildF : Nat → HM → Option HM
  | 0, _ => none
  | fuel + 1, hm => RebuildW (fun h => RebuildF fuel h) hm

/-- `HashMap::MakeGoodSmall()`: rebuild when
`place_.size() > elements_.size() * kSizeChange * kDensity`. -/
def MakeGoodSmall (hm : HM) : Option HM :=
  if hm.elements.length * kSizeChange * kDensity < hm.place.length then RebuildF 1 hm
  else some hm

/-- `HashMap::DeleteElement(id)`: swap the erased entry with the last dense
entry, pop it, repair `place_`/`rev_place_` for the moved entry, mark the
cell `id` as a tombstone, then run the shrink check.  The source assumes
`place_[id]` holds a dense index; any other content is undefined behaviour,
modelled as `none`. -/
def DeleteElement (hm : HM) (id : Nat) : Option HM :=
  match hm.place[id]? with
  | some (Slot.occ p) =>
    let el' := (listSwap hm.elements (hm.elements.length - 1) p).dropLast
    match hm.rev_place[hm.elements.length - 1]? with
    | none => none
    | some rp =>
      MakeGoodSmall
        { hm with
          elements := el',
          place := (hm.place.set rp (Slot.occ p)).set id Slot.kDeleted,
          rev_place := hm.rev_place.set p rp }
  | _ => none

/-- `HashMap::erase(key)`: resolve; delete only when the cell is occupied. -/
def eraseKey (hm : HM) (key : Nat) : Option HM :=
  match FindPlace hm key with
  | none => none
  | some id =>
    if hm.place[id]? = some Slot.kNoValue then some hm else DeleteElement hm id

/-- `HashMap::find(key)`: `some none` is the iterator `end()` (key absent),
`some (some p)` is an iterator at dense position `p`.  A tombstone cell
(impossible as a `FindPlace` result) would make the source return an
iterator holding the garbage position `kDeleted`; this is modelled as `none`. -/
def find (hm : HM) (key : Nat) : Option (Option Nat) :=
  match FindPlace hm key with
  | none => none
  | some id =>
    match hm.place[id]? with
    | some Slot.kNoValue => some none
    | some (Slot.occ p) => some (some p)
    | _ => none

/-- `HashMap::at(key)`: `some none` models the thrown `std::out_of_range`,
`some (some v)` returns the stored value.  The method is `const`; it takes no
state apart from `hm` and returns none back, so it cannot mutate the table. -/
def at_ (hm : HM) (key : Nat) : Option (Option Nat) :=
  match FindPlace hm key with
  | none => none
  | some id =>
    match hm.place[id]? with
    | some Slot.kNoValue => some none
    | some (Slot.occ p) =>
      match hm.elements[p]? with
      | some e => some (some e.2)
      | none => none
    | _ => none

/-- `HashMap::operator[](key)` up to the returned reference: the resulting
state together with the dense position the returned reference points at
(`elements_[place_[id]]`).  On a miss the entry `(key, ValueType())`
(`ValueType() = 0` for `Nat`) is added and the cell is resolved a second
time, because `AddElement` may have triggered a rebuild. -/
def indexLoc (hm : HM) (key : Nat) : Option (HM × Nat) :=
  match FindPlace hm key with
  | none => none
  | some id =>
    match hm.place[id]? with
    | some Slot.kNoValue =>
      match AddElementW (RebuildF 1) hm id (key, 0) with
      | none => none
      | some hm1 =>
        match FindPlace hm1 key with
        | none => none
        | some id2 =>
          match hm1.place[id2]? with
          | some (Slot.occ p) => some (hm1, p)
          | _ => none
    | some (Slot.occ p) => some (hm, p)
    | _ => none

/-- Writing `v` through the reference returned by `operator[](key)`:
the value component of the dense entry the reference points at is replaced. -/
def indexAssign (hm : HM) (key v : Nat) : Option HM :=
  match indexLoc hm key with
  | none => none
  | some (hm1, p) =>
    match hm1.elements[p]? with
    | none => none
    | some e => some { hm1 with elements := hm1.elements.set p (e.1, v) }

/-- `HashMap::clear()`: drop all entries, then rebuild. -/
def clear (hm : HM) : Option HM :=
  RebuildF 1 { hm with elements := [] }

/-- The constructor `HashMap(hasher)`: all containers empty, counter zero,
then `Rebuild()`. -/
def emptyTable (hasher : Nat → Nat) : Option HM :=
  RebuildF 1
    { hasher := hasher, elements := [], place := [], rev_place := [],
      operations_complete := 0 }

/-- The range / initializer-list / copy constructors: construct empty, then
insert every pair in order. -/
def fromList (hasher : Nat → Nat) (l : List (Nat × Nat)) : Option HM :=
  match emptyTable hasher with
  | none => none
  | some hm => List.foldlM (fun acc e => insertW (RebuildF 1) acc e) hm l

/-- `HashMap::size()`. -/
def size (hm : HM) : Nat := hm.elements.length

/-- The keys of the dense sequence, in dense order. -/
def keys (hm : HM) : List Nat := hm.elements.map Prod.fst

/-- Specification-level lookup: the value of the first dense entry with the
given key (under the no-duplicate-keys invariant, the only one). -/
def lookup (hm : HM) (key : Nat) : Option Nat :=
  (hm.elements.find? (fun e => e.1 == key)).map Prod.snd

/-- One public mutating or observing operation of the table. -/
inductive Op where
  | insert (k v : Nat)
  | erase (k : Nat)
  | clearOp
  | indexRead (k : Nat)
  | indexWrite (k v : Nat)
  | findOp (k : Nat)
  | atOp (k : Nat)
deriving DecidableEq, Repr

/-- Applying one public operation to the table state.  `find` and `at` are
`const` methods and leave the state unchanged; `indexRead` is `operator[]`
whose returned reference is only read, `indexWrite k v` is `operator[]`
followed by an assignment through the returned reference. -/
def applyOp (hm : HM) : Op → Option HM
  | Op.insert k v => insertW (RebuildF 1) hm (k, v)
  | Op.erase k => eraseKey hm k
  | Op.clearOp => clear hm
  | Op.indexRead k => (indexLoc hm k).map Prod.fst
  | Op.indexWrite k v => indexAssign hm k v
  | Op.findOp _ => some hm
  | Op.atOp _ => some hm

/-- Applying a sequence of public operations. -/
def runOps (hm : HM) (ops : List Op) : Option HM :=
  List.foldlM applyOp hm ops

/-- A table state is reachable when some constructor call followed by some
sequence of public operations produces it. -/
def Reachable (hm : HM) : Prop :=
  ∃ hasher l ops, (fromList hasher l).bind (fun h => runOps h ops) = some hm

/-- Whether an operation erases the key `k` (directly or via `clear`) or
overwrites its value through the reference returned by `operator[]`. -/
def touchesB (k : Nat) : Op → Bool
  | Op.erase k' => k' == k
  | Op.clearOp => true
  | Op.indexWrite k' _ => k' == k
  | _ => false

/-- The cell visited at step `t` of the probing scan for `key`. -/
def slotOf (hm : HM) (key t : Nat) : Nat :=
  (hm.hasher key % hm.place.length + t) % hm.place.length

/-- The probing scan stops at cell `s`: the cell is empty, or occupied by an
entry whose key is `key`. -/
def stopAt (pl : List Slot) (el : List (Nat × Nat)) (key s : Nat) : Prop :=
  pl[s]? = some Slot.kNoValue ∨
    ∃ p e, pl[s]? = some (Slot.occ p) ∧ el[p]? = some e ∧ e.1 = key

/-- The probing scan steps over cell `s`: the cell is a tombstone, or
occupied by an entry whose key differs from `key`. -/
def contAt (pl : List Slot) (el : List (Nat × Nat)) (key s : Nat) : Prop :=
  pl[s]? = some Slot.kDeleted ∨
    ∃ p e, pl[s]? = some (Slot.occ p) ∧ el[p]? = some e ∧ e.1 ≠ key

/-- Structural part of the table invariant (holds also at the intermediate
states during a rebuild's re-insertions). -/
structure CoreInv (hm : HM) : Prop where
  m_pos : 0 < hm.place.length
  rev_len : hm.rev_place.length = hm.place.length
  n_le_ops : hm.elements.length ≤ hm.operations_complete
  countNonEmpty :
    (hm.place.filter (fun s => s ≠ Slot.kNoValue)).length ≤ hm.operations_complete
  occ_valid : ∀ j p, hm.place[j]? = some (Slot.occ p) →
    p < hm.elements.length ∧ hm.rev_place[p]? = some j
  rev_valid : ∀ p, p < hm.elements.length →
    ∃ j, hm.rev_place[p]? = some j ∧ hm.place[j]? = some (Slot.occ p)
  nodup : (hm.elements.map Prod.fst).Nodup
  chain : ∀ (p : Nat) (e : Nat × Nat), hm.elements[p]? = some e →
    ∃ d j, d < hm.place.length ∧ hm.rev_place[p]? = some j ∧
      slotOf hm e.1 d = j ∧
      ∀ t, t < d → hm.place[slotOf hm e.1 t]? ≠ some Slot.kNoValue

/-- Full table invariant: the structural part, the grow-check bound
maintained by `MakeGoodBig`, and the shrink bound maintained by
`MakeGoodSmall`. -/
structure Inv (hm : HM) : Prop where
  core : CoreInv hm
  density : hm.operations_complete * kDensity < hm.place.length
  sizeBound : hm.place.length ≤ hm.elements.length * kSizeChange * kDensity ∨
    (hm.elements.length = 0 ∧ hm.place.length = 1)

/-- Identity hash function, used by the concrete witness states. -/
def idHash : Nat → Nat := fun k => k

/-- The empty table produced by the constructor `HashMap(Hash())` with the
identity hash function: one empty cell, no entries. -/
def hmEmpty : HM :=
  { hasher := idHash, elements := [], place := [Slot.kNoValue], rev_place := [0],
    operations_complete := 0 }

/-- Scenario B, phase 1: insert the keys `1..1000` (each with value `0`). -/
def insOps : List Op := (List.range 1000).map (fun i => Op.insert (i + 1) 0)

/-- Scenario B, phase 2: erase the even keys `2, 4, …, 1000`. -/
def delOps : List Op := (List.range 500).map (fun i => Op.erase (2 * i + 2))

end HashMapVerify

namespace HashMapVerify

theorem ite_wrap_eq_mod {i m : Nat} (hi : i ≤ m) (hm : 0 < m) :
    (if i = m then 0 else i) = i % m := by
  rcases Nat.lt_or_ge i m with h1 | h1
  · simp [Nat.ne_of_lt h1, Nat.mod_eq_of_lt h1]
  · have h2 : i = m := le_antisymm hi h1
    simp [h2, Nat.mod_self]

theorem findPlaceAux_stop {pl : List Slot} {el : List (Nat × Nat)} {key : Nat}
    (fuel : Nat) {i : Nat} (hi : i ≤ pl.length) (hm : 0 < pl.length)
    (h : stopAt pl el key (i % pl.length)) :
    findPlaceAux pl el key (fuel + 1) i = some (i % pl.length) := by
  rcases h with h | ⟨p, e, hp, he, hk⟩
  · simp [findPlaceAux, ite_wrap_eq_mod hi hm, h]
  · simp [findPlaceAux, ite_wrap_eq_mod hi hm, hp, he, hk]

theorem findPlaceAux_cont {pl : List Slot} {el : List (Nat × Nat)} {key : Nat}
    (fuel : Nat) {i : Nat} (hi : i ≤ pl.length) (hm : 0 < pl.length)
    (h : contAt pl el key (i % pl.length)) :
    findPlaceAux pl el key (fuel + 1) i =
      findPlaceAux pl el key fuel (i % pl.length + 1) := by
  rcases h with h | ⟨p, e, hp, he, hk⟩
  · simp [findPlaceAux, ite_wrap_eq_mod hi hm, h]
  · simp [findPlaceAux, ite_wrap_eq_mod hi hm, hp, he, hk]

theorem findPlaceAux_err {pl : List Slot} {el : List (Nat × Nat)} {key : Nat}
    (fuel : Nat) {i p : Nat} (hi : i ≤ pl.length) (hm : 0 < pl.length)
    (hp : pl[i % pl.length]? = some (Slot.occ p)) (he : el[p]? = none) :
    findPlaceAux pl el key (fuel + 1) i = none := by
  simp [findPlaceAux, ite_wrap_eq_mod hi hm, hp, he]

theorem findPlaceAux_reaches {pl : List Slot} {el : List (Nat × Nat)} {key : Nat}
    (hm : 0 < pl.length) :
    ∀ (d fuel i : Nat), i ≤ pl.length → d < fuel →
      (∀ t, t < d → contAt pl el key ((i % pl.length + t) % pl.length)) →
      stopAt pl el key ((i % pl.length + d) % pl.length) →
      findPlaceAux pl el key fuel i = some ((i % pl.length + d) % pl.length) := by
  intro d
  induction d with
  | zero =>
    intro fuel i hi hfuel _ hstop
    obtain ⟨f, rfl⟩ : ∃ f, fuel = f + 1 := ⟨fuel - 1, by omega⟩
    have hmm : (i % pl.length + 0) % pl.length = i % pl.length := by
      simp [Nat.mod_eq_of_lt (Nat.mod_lt i hm)]
    rw [hmm] at hstop ⊢
    exact findPlaceAux_stop f hi hm hstop
  | succ d ih =>
    intro fuel i hi hfuel hcont hstop
    obtain ⟨f, rfl⟩ : ∃ f, fuel = f + 1 := ⟨fuel - 1, by omega⟩
    have h0 : contAt pl el key (i % pl.length) := by
      have := hcont 0 (Nat.succ_pos d)
      simpa [Nat.mod_eq_of_lt (Nat.mod_lt i hm)] using this
    rw [findPlaceAux_cont f hi hm h0]
    have hi' : i % pl.length + 1 ≤ pl.length := Nat.mod_lt i hm
    have harith : ∀ t : Nat, ((i % pl.length + 1) % pl.length + t) % pl.length =
        (i % pl.length + (t + 1)) % pl.length := by
      intro t
      rw [Nat.mod_add_mod]
      congr 1
      omega
    have hcont' : ∀ t, t < d →
        contAt pl el key (((i % pl.length + 1) % pl.length + t) % pl.length) := by
      intro t ht
      rw [harith t]
      exact hcont (t + 1) (by omega)
    have hstop' :
        stopAt pl el key (((i % pl.length + 1) % pl.length + d) % pl.length) := by
      rw [harith d]
      exact hstop
    rw [ih f (i % pl.length + 1) hi' (by omega) hcont' hstop']
    rw [harith d]

theorem findPlaceAux_inversion {pl : List Slot} {el : List (Nat × Nat)} {key : Nat}
    (hm : 0 < pl.length) :
    ∀ (fuel i j : Nat), i ≤ pl.length → findPlaceAux pl el key fuel i = some j →
      ∃ d, d < fuel ∧ j = (i % pl.length + d) % pl.length ∧
        stopAt pl el key j ∧
        ∀ t, t < d → contAt pl el key ((i % pl.length + t) % pl.length) := by
  intro fuel
  induction fuel with
  | zero => intro i j _ h; simp [findPlaceAux] at h
  | succ f ih =>
    intro i j hi h
    have hlt : i % pl.length < pl.length := Nat.mod_lt i hm
    rcases hget : pl[i % pl.length]? with _ | sl
    · exact absurd (List.getElem?_eq_none_iff.mp hget) (not_le.mpr hlt)
    · cases sl with
      | kNoValue =>
        rw [findPlaceAux_stop f hi hm (Or.inl hget)] at h
        refine ⟨0, by omega, ?_, Or.inl ?_, by omega⟩
        · simpa using h.symm
        · cases h
          simpa [Nat.mod_eq_of_lt hlt] using hget
      | kDeleted =>
        rw [findPlaceAux_cont f hi hm (Or.inl hget)] at h
        obtain ⟨d, hd, hj, hstop, hcont⟩ := ih (i % pl.length + 1) j hlt h
        refine ⟨d + 1, by omega, ?_, hstop, ?_⟩
        · rw [hj, Nat.mod_add_mod]
          congr 1
          omega
        · intro t ht
          rcases Nat.eq_zero_or_pos t with rfl | htpos
          · simpa [Nat.mod_eq_of_lt hlt] using Or.inl hget
          · have := hcont (t - 1) (by omega)
            rw [Nat.mod_add_mod] at this
            have harg : i % pl.length + 1 + (t - 1) = i % pl.length + t := by omega
            rwa [harg] at this
      | occ p =>
        rcases he : el[p]? with _ | e
        · rw [findPlaceAux_err f hi hm hget he] at h
          exact absurd h (by simp)
        · by_cases hk : e.1 = key
          · rw [findPlaceAux_stop f hi hm (Or.inr ⟨p, e, hget, he, hk⟩)] at h
            refine ⟨0, by omega, ?_, Or.inr ⟨p, e, ?_, he, hk⟩, by omega⟩
            · simpa using h.symm
            · cases h
              simpa [Nat.mod_eq_of_lt hlt] using hget
          · rw [findPlaceAux_cont f hi hm (Or.inr ⟨p, e, hget, he, hk⟩)] at h
            obtain ⟨d, hd, hj, hstop, hcont⟩ := ih (i % pl.length + 1) j hlt h
            refine ⟨d + 1, by omega, ?_, hstop, ?_⟩
            · rw [hj, Nat.mod_add_mod]
              congr 1
              omega
            · intro t ht
              rcases Nat.eq_zero_or_pos t with rfl | htpos
              · simpa [Nat.mod_eq_of_lt hlt] using
                  Or.inr ⟨p, e, hget, he, hk⟩
              · have := hcont (t - 1) (by omega)
                rw [Nat.mod_add_mod] at this
                have harg : i % pl.length + 1 + (t - 1) = i % pl.length + t := by omega
                rwa [harg] at this

theorem findPlaceAux_total {pl : List Slot} {el : List (Nat × Nat)} {key : Nat}
    (hm : 0 < pl.length)
    (hclass : ∀ s, s < pl.length → stopAt pl el key s ∨ contAt pl el key s)
    {i : Nat} (hi : i < pl.length) :
    ∀ d, d < pl.length → stopAt pl el key ((i + d) % pl.length) →
      ∃ j, findPlaceAux pl el key pl.length i = some j := by
  intro d
  induction d using Nat.strong_induction_on with
  | _ d ih =>
    intro hd hstop
    by_cases hall : ∀ t, t < d → contAt pl el key ((i + t) % pl.length)
    · refine ⟨(i + d) % pl.length, ?_⟩
      have hmodi : i % pl.length = i := Nat.mod_eq_of_lt hi
      have := findPlaceAux_reaches hm d pl.length i
        (le_of_lt hi) hd (by rw [hmodi]; exact hall) (by rw [hmodi]; exact hstop)
      rw [this, hmodi]
    · push_neg at hall
      obtain ⟨t, ht, hnc⟩ := hall
      rcases hclass ((i + t) % pl.length) (Nat.mod_lt _ hm) with hs | hc
      · exact ih t ht (by omega) hs
      · exact absurd hc hnc

end HashMapVerify

namespace HashMapVerify

theorem nodup_key_inj {l : List (Nat × Nat)} (h : (l.map Prod.fst).Nodup)
    {p q : Nat} {e f : Nat × Nat} (hp : l[p]? = some e) (hq : l[q]? = some f)
    (hk : e.1 = f.1) : p = q := by
  obtain ⟨hpl, hpe⟩ := List.getElem?_eq_some.mp hp
  obtain ⟨hql, hqe⟩ := List.getElem?_eq_some.mp hq
  have hpl' : p < (l.map Prod.fst).length := by simpa using hpl
  have hql' : q < (l.map Prod.fst).length := by simpa using hql
  have hgv : (l.map Prod.fst)[p] = (l.map Prod.fst)[q] := by
    rw [List.getElem_map, List.getElem_map, hpe, hqe, hk]
  have := (h.get_inj_iff (i := ⟨p, hpl'⟩) (j := ⟨q, hql'⟩)).mp
    (by simpa [List.get_eq_getElem] using hgv)
  exact congrArg Fin.val this

theorem mod_add_cancel {m i0 a b : Nat} (hm : 0 < m) (ha : a < m) (hb : b < m)
    (h : (i0 + a) % m = (i0 + b) % m) : a = b := by
  have h2 : a ≡ b [MOD m] := Nat.ModEq.add_left_cancel' i0 h
  have h3 : a % m = b % m := h2
  rwa [Nat.mod_eq_of_lt ha, Nat.mod_eq_of_lt hb] at h3

theorem slot_classified {hm : HM} (hc : CoreInv hm) (key : Nat) {s : Nat}
    (hs : s < hm.place.length) :
    stopAt hm.place hm.elements key s ∨ contAt hm.place hm.elements key s := by
  rcases hget : hm.place[s]? with _ | sl
  · exact absurd (List.getElem?_eq_none_iff.mp hget) (not_le.mpr hs)
  · cases sl with
    | kNoValue => exact Or.inl (Or.inl hget)
    | kDeleted => exact Or.inr (Or.inl hget)
    | occ p =>
      obtain ⟨hp, _⟩ := hc.occ_valid s p hget
      have he : hm.elements[p]? = some hm.elements[p] := List.getElem?_eq_getElem hp
      by_cases hk : (hm.elements[p]).1 = key
      · exact Or.inl (Or.inr ⟨p, hm.elements[p], hget, he, hk⟩)
      · exact Or.inr (Or.inr ⟨p, hm.elements[p], hget, he, hk⟩)

theorem exists_empty_slot {hm : HM} (hc : CoreInv hm)
    (hd : hm.operations_complete < hm.place.length) :
    ∃ s, s < hm.place.length ∧ hm.place[s]? = some Slot.kNoValue := by
  by_contra hno
  push_neg at hno
  have hall : ∀ a ∈ hm.place, (fun s => decide (s ≠ Slot.kNoValue)) a = true := by
    intro a ha
    obtain ⟨n, hn⟩ := List.mem_iff_getElem?.mp ha
    have hnlen : n < hm.place.length := by
      by_contra hge
      rw [List.getElem?_eq_none_iff.mpr (by omega)] at hn
      exact Option.noConfusion hn
    have := hno n hnlen
    simp only [decide_eq_true_eq]
    intro hEq
    rw [hEq] at hn
    exact this hn
  have : hm.place.filter (fun s => s ≠ Slot.kNoValue) = hm.place :=
    List.filter_eq_self.mpr hall
  have hlen := hc.countNonEmpty
  rw [this] at hlen
  omega

theorem findPlace_total {hm : HM} (hc : CoreInv hm)
    (hd : hm.operations_complete < hm.place.length) (key : Nat) :
    ∃ j, FindPlace hm key = some j := by
  obtain ⟨s, hs, hemp⟩ := exists_empty_slot hc hd
  have hm0 := hc.m_pos
  set m := hm.place.length with hmdef
  set i0 := hm.hasher key % m with hi0
  have hi0lt : i0 < m := Nat.mod_lt _ hm0
  refine findPlaceAux_total hm0 (fun s' hs' => slot_classified hc key hs') hi0lt
    ((m + s - i0) % m) (Nat.mod_lt _ hm0) ?_
  have harith : (i0 + (m + s - i0) % m) % m = s := by
    rw [Nat.add_mod_mod]
    have h1 : i0 + (m + s - i0) = m + s := by omega
    rw [h1, Nat.add_mod_left, Nat.mod_eq_of_lt hs]
  rw [harith]
  exact Or.inl hemp

theorem findPlace_inversion {hm : HM} (hc : CoreInv hm) {key j : Nat}
    (h : FindPlace hm key = some j) :
    ∃ d, d < hm.place.length ∧ j = slotOf hm key d ∧
      stopAt hm.place hm.elements key j ∧
      ∀ t, t < d → contAt hm.place hm.elements key (slotOf hm key t) := by
  have hm0 := hc.m_pos
  have hi0lt : hm.hasher key % hm.place.length < hm.place.length := Nat.mod_lt _ hm0
  obtain ⟨d, hd, hj, hstop, hcont⟩ :=
    findPlaceAux_inversion hm0 hm.place.length (hm.hasher key % hm.place.length) j
      (le_of_lt hi0lt) h
  have hmod : hm.hasher key % hm.place.length % hm.place.length =
      hm.hasher key % hm.place.length := Nat.mod_eq_of_lt hi0lt
  refine ⟨d, hd, ?_, hstop, ?_⟩
  · rw [hj, hmod]; rfl
  · intro t ht
    have := hcont t ht
    rwa [hmod] at this

theorem findPlace_mem {hm : HM} (hc : CoreInv hm)
    (hd : hm.operations_complete < hm.place.length)
    {p : Nat} {e : Nat × Nat} (he : hm.elements[p]? = some e) :
    ∃ j, FindPlace hm e.1 = some j ∧ hm.place[j]? = some (Slot.occ p) ∧
      hm.rev_place[p]? = some j := by
  have hm0 := hc.m_pos
  obtain ⟨dp, jp, hdp, hrev, hslot, hpath⟩ := hc.chain p e he
  obtain ⟨j, hfind⟩ := findPlace_total hc hd e.1
  obtain ⟨d, hdm, hj, hstop, hcont⟩ := findPlace_inversion hc hfind
  have hocc : hm.place[jp]? = some (Slot.occ p) := by
    obtain ⟨hp, _⟩ := List.getElem?_eq_some.mp he
    obtain ⟨j', hj', hocc'⟩ := hc.rev_valid p hp
    rw [hrev] at hj'
    cases hj'
    exact hocc'
  have hdeq : d = dp := by
    rcases Nat.lt_trichotomy d dp with hlt | heq | hgt
    · exfalso
      rcases hstop with hemp | ⟨q, f, hq, hf, hkf⟩
      · exact hpath d hlt (hj ▸ hemp)
      · have hpq : q = p := nodup_key_inj hc.nodup hf he hkf
        subst hpq
        obtain ⟨_, hrev'⟩ := hc.occ_valid j q (hj ▸ hq)
        rw [hrev] at hrev'
        have hjjp : j = jp := by injection hrev'.symm
        rw [hj, ← hslot] at hjjp
        have := mod_add_cancel hm0
          (show d < hm.place.length from hdm) (show dp < hm.place.length from hdp) hjjp
        omega
    · exact heq
    · exfalso
      have := hcont dp hgt
      rw [hslot] at this
      rcases this with hdel | ⟨q, f, hq, hf, hkf⟩
      · rw [hocc] at hdel
        exact Slot.noConfusion (Option.some.inj hdel)
      · rw [hocc] at hq
        have hqp : p = q := by
          have h2 := Option.some.inj hq
          injection h2 with h3
        subst hqp
        rw [he] at hf
        have h4 : e = f := by injection hf with h5
        apply hkf
        rw [← h4]
  refine ⟨j, hfind, ?_, ?_⟩
  · rw [hj, hdeq, hslot]
    exact hocc
  · rw [hrev, hj, hdeq, hslot]

theorem findPlace_not_mem {hm : HM} (hc : CoreInv hm)
    (hd : hm.operations_complete < hm.place.length) {key : Nat}
    (hk : ∀ (p : Nat) (e : Nat × Nat), hm.elements[p]? = some e → e.1 ≠ key) :
    ∃ j, FindPlace hm key = some j ∧ hm.place[j]? = some Slot.kNoValue := by
  obtain ⟨j, hfind⟩ := findPlace_total hc hd key
  obtain ⟨d, _, _, hstop, _⟩ := findPlace_inversion hc hfind
  rcases hstop with hemp | ⟨p, e, _, hf, hkf⟩
  · exact ⟨j, hfind, hemp⟩
  · exact absurd hkf (hk p e hf)

end HashMapVerify

namespace HashMapVerify

theorem filter_length_set_le {α : Type} (P : α → Bool) :
    ∀ (l : List α) (i : Nat) (a : α),
      ((l.set i a).filter P).length ≤ (l.filter P).length + 1 := by
  intro l
  induction l with
  | nil => intro i a; simp
  | cons hd tl ih =>
    intro i a
    cases i with
    | zero =>
      simp only [List.set]
      cases hP : P a <;> cases hPh : P hd <;>
        simp [List.filter, hP, hPh] <;> omega
    | succ i =>
      simp only [List.set]
      cases hPh : P hd <;> simp [List.filter, hPh] <;>
        exact ih i a

theorem filter_length_set_empty :
    ∀ (l : List Slot) (i : Nat), l[i]? = some Slot.kNoValue →
      ∀ (a : Slot), a ≠ Slot.kNoValue →
      ((l.set i a).filter (fun s => s ≠ Slot.kNoValue)).length =
        (l.filter (fun s => s ≠ Slot.kNoValue)).length + 1 := by
  intro l
  induction l with
  | nil => intro i h; simp at h
  | cons hd tl ih =>
    intro i h a ha
    cases i with
    | zero =>
      have hhd : hd = Slot.kNoValue := by simpa using h
      subst hhd
      simp [List.filter, ha]
    | succ i =>
      have h' : tl[i]? = some Slot.kNoValue := by simpa using h
      have ihv := ih i h' a ha
      by_cases hhd : hd = Slot.kNoValue
      · subst hhd
        simp only [List.set, List.filter_cons]
        simpa using ihv
      · simp only [List.set, List.filter_cons]
        have hdec : decide (hd ≠ Slot.kNoValue) = true := by
          simp [hhd]
        rw [hdec]
        simp only [if_true, List.length_cons]
        omega

theorem listResize_length (l : List Nat) (n : Nat) : (listResize l n).length = n := by
  simp [listResize]
  omega

theorem mem_keys_iff {hm : HM} {k : Nat} :
    k ∈ keys hm ↔ ∃ (p : Nat) (e : Nat × Nat), hm.elements[p]? = some e ∧ e.1 = k := by
  constructor
  · intro h
    obtain ⟨e, he, hk⟩ := List.mem_map.mp h
    obtain ⟨p, hp⟩ := List.mem_iff_getElem?.mp he
    exact ⟨p, e, hp, hk⟩
  · rintro ⟨p, e, hp, rfl⟩
    apply List.mem_map.mpr
    refine ⟨e, ?_, rfl⟩
    apply List.mem_iff_getElem?.mpr ⟨p, hp⟩

theorem not_mem_keys {hm : HM} {k : Nat} (h : k ∉ keys hm) :
    ∀ (p : Nat) (e : Nat × Nat), hm.elements[p]? = some e → e.1 ≠ k := by
  intro p e hp hk
  exact h (mem_keys_iff.mpr ⟨p, e, hp, hk⟩)

theorem coreInv_add {hm : HM} (hc : CoreInv hm)
    (hops : hm.operations_complete < hm.place.length)
    {v : Nat × Nat} {id : Nat}
    (hfind : FindPlace hm v.1 = some id)
    (hemp : hm.place[id]? = some Slot.kNoValue) :
    CoreInv { hm with
      operations_complete := hm.operations_complete + 1,
      place := hm.place.set id (Slot.occ hm.elements.length),
      rev_place := hm.rev_place.set hm.elements.length id,
      elements := hm.elements ++ [v] } := by
  have hidlt : id < hm.place.length := (List.getElem?_eq_some.mp hemp).1
  have hnlt : hm.elements.length < hm.place.length := lt_of_le_of_lt hc.n_le_ops hops
  have hnrev : hm.elements.length < hm.rev_place.length := by
    rw [hc.rev_len]; exact hnlt
  have hfresh : ∀ (p : Nat) (e : Nat × Nat), hm.elements[p]? = some e → e.1 ≠ v.1 := by
    intro p e he heq
    obtain ⟨j, hf2, hocc, _⟩ := findPlace_mem hc hops he
    rw [heq, hfind] at hf2
    have hji : id = j := by injection hf2
    rw [← hji, hemp] at hocc
    exact Slot.noConfusion (Option.some.inj hocc)
  constructor
  · simpa using hc.m_pos
  · simpa using hc.rev_len
  · simpa using Nat.succ_le_succ hc.n_le_ops
  · calc ((hm.place.set id (Slot.occ hm.elements.length)).filter
        (fun s => s ≠ Slot.kNoValue)).length
        ≤ (hm.place.filter (fun s => s ≠ Slot.kNoValue)).length + 1 :=
          filter_length_set_le _ hm.place id _
      _ ≤ hm.operations_complete + 1 := Nat.succ_le_succ hc.countNonEmpty
  · intro j' q hq
    simp only at hq ⊢
    by_cases hji : j' = id
    · subst hji
      rw [List.getElem?_set_eq_of_lt _ hidlt] at hq
      have hqn : hm.elements.length = q := by
        have h2 := Option.some.inj hq
        injection h2
      subst hqn
      simp only [List.length_append, List.length_cons, List.length_nil]
      refine ⟨by omega, ?_⟩
      rw [List.getElem?_set_eq_of_lt _ hnrev]
    · rw [List.getElem?_set_ne (fun h => hji h.symm)] at hq
      obtain ⟨hql, hqrev⟩ := hc.occ_valid j' q hq
      simp only [List.length_append, List.length_cons, List.length_nil]
      refine ⟨by omega, ?_⟩
      rw [List.getElem?_set_ne (by omega)]
      exact hqrev
  · intro q hql
    simp only [List.length_append, List.length_cons, List.length_nil] at hql
    simp only
    by_cases hqn : q = hm.elements.length
    · subst hqn
      refine ⟨id, ?_, ?_⟩
      · rw [List.getElem?_set_eq_of_lt _ hnrev]
      · rw [List.getElem?_set_eq_of_lt _ hidlt]
    · have hql' : q < hm.elements.length := by omega
      obtain ⟨j, hrevq, hoccq⟩ := hc.rev_valid q hql'
      have hji : j ≠ id := by
        intro h
        rw [h, hemp] at hoccq
        exact Slot.noConfusion (Option.some.inj hoccq)
      refine ⟨j, ?_, ?_⟩
      · rw [List.getElem?_set_ne (by omega)]
        exact hrevq
      · rw [List.getElem?_set_ne (fun h => hji h.symm)]
        exact hoccq
  · simp only [List.map_append]
    rw [List.nodup_append]
    refine ⟨hc.nodup, by simp, ?_⟩
    intro a ha hb
    simp only [List.map_cons, List.map_nil, List.mem_singleton] at hb
    obtain ⟨e, hemem, hfst⟩ := List.mem_map.mp ha
    obtain ⟨p, hp⟩ := List.mem_iff_getElem?.mp hemem
    exact hfresh p e hp (hfst.trans hb)
  · intro p' e' hp'
    have hslot_eq : ∀ (key t : Nat),
        slotOf { hm with
          operations_complete := hm.operations_complete + 1,
          place := hm.place.set id (Slot.occ hm.elements.length),
          rev_place := hm.rev_place.set hm.elements.length id,
          elements := hm.elements ++ [v] } key t = slotOf hm key t := by
      intro key t
      simp [slotOf]
    simp only [hslot_eq]
    simp only [List.length_set]
    rcases Nat.lt_trichotomy p' hm.elements.length with hlt | heq | hgt
    · rw [List.getElem?_append_left hlt] at hp'
      obtain ⟨d, j, hd, hrev, hslot, hpath⟩ := hc.chain p' e' hp'
      refine ⟨d, j, hd, ?_, hslot, ?_⟩
      · rw [List.getElem?_set_ne (by omega)]
        exact hrev
      · intro t ht
        by_cases hsid : slotOf hm e'.1 t = id
        · rw [hsid, List.getElem?_set_eq_of_lt _ hidlt]
          simp
        · rw [List.getElem?_set_ne (fun h => hsid h.symm)]
          exact hpath t ht
    · subst heq
      rw [List.getElem?_concat_length] at hp'
      have hev : e' = v := (Option.some.inj hp').symm
      subst hev
      obtain ⟨d, hdm, hj, hstop, hcont⟩ := findPlace_inversion hc hfind
      refine ⟨d, id, hdm, ?_, hj.symm, ?_⟩
      · rw [List.getElem?_set_eq_of_lt _ hnrev]
      · intro t ht
        by_cases hsid : slotOf hm e'.1 t = id
        · rw [hsid, List.getElem?_set_eq_of_lt _ hidlt]
          simp
        · rw [List.getElem?_set_ne (fun h => hsid h.symm)]
          rcases hcont t ht with hdel | ⟨q, f, hq, hf, hkf⟩
          · rw [hdel]
            simp
          · rw [hq]
            simp
    · rw [List.getElem?_append_right (by omega)] at hp'
      have : p' - hm.elements.length ≥ 1 := by omega
      rw [List.getElem?_eq_none_iff.mpr (by simp; omega)] at hp'
      exact Option.noConfusion hp'

end HashMapVerify

namespace HashMapVerify

theorem insert_mem_noop {hm : HM} (hc : CoreInv hm)
    (hops : hm.operations_complete < hm.place.length)
    {p : Nat} {e : Nat × Nat} (he : hm.elements[p]? = some e) (w : Nat)
    (rb : HM → Option HM) :
    insertW rb hm (e.1, w) = some hm := by
  obtain ⟨j, hfind, hocc, _⟩ := findPlace_mem hc hops he
  simp [insertW, hfind, hocc]

theorem insert_fresh_step {hm : HM} (hc : CoreInv hm)
    (hops : hm.operations_complete < hm.place.length) {v : Nat × Nat}
    (hk : v.1 ∉ keys hm) :
    ∃ id, FindPlace hm v.1 = some id ∧ hm.place[id]? = some Slot.kNoValue ∧
      CoreInv { hm with
        operations_complete := hm.operations_complete + 1,
        place := hm.place.set id (Slot.occ hm.elements.length),
        rev_place := hm.rev_place.set hm.elements.length id,
        elements := hm.elements ++ [v] } ∧
      ∀ rb, insertW rb hm v =
        MakeGoodBigW rb
          { hm with
            operations_complete := hm.operations_complete + 1,
            place := hm.place.set id (Slot.occ hm.elements.length),
            rev_place := hm.rev_place.set hm.elements.length id,
            elements := hm.elements ++ [v] } := by
  obtain ⟨id, hfind, hemp⟩ := findPlace_not_mem hc hops (not_mem_keys hk)
  refine ⟨id, hfind, hemp, coreInv_add hc hops hfind hemp, ?_⟩
  intro rb
  simp [insertW, hfind, hemp, AddElementW]

theorem makeGoodBig_skip {hm : HM} (rb : HM → Option HM)
    (h : hm.operations_complete * kDensity < hm.place.length) :
    MakeGoodBigW rb hm = some hm := by
  simp [MakeGoodBigW]
  omega

theorem makeGoodBig_fire {hm : HM} (rb : HM → Option HM)
    (h : hm.place.length ≤ hm.operations_complete * kDensity) :
    MakeGoodBigW rb hm = rb hm := by
  simp [MakeGoodBigW, h]

theorem reinsert_loop (full : List (Nat × Nat))
    (hnodup : (full.map Prod.fst).Nodup) (m' : Nat)
    (hmpdef : m' = if full.length = 0 then 1 else full.length * kSizeChange) :
    ∀ (rest pre : List (Nat × Nat)) (s : HM),
      pre ++ rest = full →
      CoreInv s → s.elements = pre →
      s.operations_complete = pre.length → s.place.length = m' →
      (s.place.filter (fun sl => sl ≠ Slot.kNoValue)).length = pre.length →
      ∃ s', (∀ f, List.foldlM (fun acc e => insertW f acc e) s rest = some s') ∧
        CoreInv s' ∧ s'.elements = full ∧ s'.hasher = s.hasher ∧
        s'.operations_complete = full.length ∧ s'.place.length = m' ∧
        (s'.place.filter (fun sl => sl ≠ Slot.kNoValue)).length = full.length := by
  intro rest
  induction rest with
  | nil =>
    intro pre s hfull hc hel hops hpl hcount
    have hpre : pre = full := by simpa using hfull
    subst hpre
    exact ⟨s, fun f => rfl, hc, hel, rfl, by rw [hops], hpl, by rw [hcount]⟩
  | cons v rest ih =>
    intro pre s hfull hc hel hops hpl hcount
    have hlen : pre.length + (rest.length + 1) = full.length := by
      rw [← hfull]; simp
    have hNpos : 0 < full.length := by omega
    have hm4 : m' = full.length * kSizeChange := by
      rw [hmpdef, if_neg (by omega)]
    have hopslt : s.operations_complete < s.place.length := by
      rw [hops, hpl, hm4]
      have h4 : kSizeChange = 4 := rfl
      rw [h4]
      omega
    have hfresh : v.1 ∉ keys s := by
      intro hmem
      rw [keys, hel] at hmem
      have hfn : (full.map Prod.fst) = pre.map Prod.fst ++ (v.1 :: rest.map Prod.fst) := by
        rw [← hfull]; simp
      rw [hfn, List.nodup_append] at hnodup
      exact hnodup.2.2 hmem (by simp)
    obtain ⟨id, hfind, hemp, hcmid, hinsEq⟩ := insert_fresh_step hc hopslt hfresh
    have hcondlt : (s.operations_complete + 1) * kDensity <
        (s.place.set id (Slot.occ s.elements.length)).length := by
      rw [List.length_set, hops, hpl, hm4]
      have h4 : kSizeChange = 4 := rfl
      have h2 : kDensity = 2 := rfl
      rw [h4, h2]
      omega
    have hmgb : ∀ rb, insertW rb s v = some
        { s with
          operations_complete := s.operations_complete + 1,
          place := s.place.set id (Slot.occ s.elements.length),
          rev_place := s.rev_place.set s.elements.length id,
          elements := s.elements ++ [v] } := by
      intro rb
      rw [hinsEq rb]
      exact makeGoodBig_skip rb hcondlt
    have hmidcount :
        ((s.place.set id (Slot.occ s.elements.length)).filter
          (fun sl => sl ≠ Slot.kNoValue)).length = pre.length + 1 := by
      rw [filter_length_set_empty s.place id hemp _ (by simp), hcount]
    obtain ⟨s', hfold, hc', hel', hh', hops', hpl', hcount'⟩ :=
      ih (pre ++ [v])
        { s with
          operations_complete := s.operations_complete + 1,
          place := s.place.set id (Slot.occ s.elements.length),
          rev_place := s.rev_place.set s.elements.length id,
          elements := s.elements ++ [v] }
        (by rw [← hfull]; simp)
        hcmid
        (by simp [hel])
        (by simp [hops])
        (by simp [List.length_set, hpl])
        (by simpa using hmidcount)
    refine ⟨s', ?_, hc', hel', hh', hops', hpl', hcount'⟩
    intro f
    rw [List.foldlM_cons, hmgb f]
    simpa using hfold f
  
end HashMapVerify

namespace HashMapVerify

theorem filter_replicate_empty (n : Nat) :
    (List.replicate n Slot.kNoValue).filter (fun sl => sl ≠ Slot.kNoValue) = [] := by
  induction n with
  | zero => rfl
  | succ n ih => simpa [List.replicate, List.filter_cons] using ih

theorem rebuild_total {hm : HM} (hnodup : (hm.elements.map Prod.fst).Nodup) :
    ∃ hm', (∀ f, RebuildW f hm = some hm') ∧ Inv hm' ∧
      hm'.elements = hm.elements ∧ hm'.hasher = hm.hasher ∧
      hm'.operations_complete = hm.elements.length ∧
      hm'.place.length =
        (if hm.elements.length = 0 then 1 else hm.elements.length * kSizeChange) ∧
      hm'.rev_place.length = hm'.place.length ∧
      (hm'.place.filter (fun sl => sl ≠ Slot.kNoValue)).length = hm.elements.length := by
  set m' := if hm.elements.length = 0 then 1 else hm.elements.length * kSizeChange
    with hmpdef
  set s0 : HM :=
    { hm with
      place := List.replicate m' Slot.kNoValue,
      rev_place := listResize hm.rev_place m',
      operations_complete := 0,
      elements := [] } with hs0
  have hmppos : 0 < m' := by
    rw [hmpdef]
    split
    · omega
    · have h4 : kSizeChange = 4 := rfl
      rw [h4]
      omega
  have hc0 : CoreInv s0 := by
    constructor
    · simpa using hmppos
    · simp [hs0, listResize_length]
    · simp [hs0]
    · simp only [hs0]
      rw [filter_replicate_empty]
      simp
    · intro j p hj
      simp only [hs0, List.getElem?_replicate] at hj
      split at hj
      · exact Slot.noConfusion (Option.some.inj hj)
      · exact Option.noConfusion hj
    · intro p hp
      simp [hs0] at hp
    · simp [hs0]
    · intro p e hp
      simp [hs0] at hp
  obtain ⟨s', hfold, hc', hel', hh', hops', hpl', hcount'⟩ :=
    reinsert_loop hm.elements hnodup m' hmpdef hm.elements [] s0 (by simp)
      hc0 (by simp [hs0]) (by simp [hs0]) (by simp [hs0]) 
      (by simp only [hs0]; rw [filter_replicate_empty]; rfl)
  refine ⟨s', ?_, ?_, hel', hh', hops', by rw [hpl', hmpdef], hc'.rev_len.trans rfl, hcount'⟩
  · intro f
    have : RebuildW f hm = List.foldlM (fun acc e => insertW f acc e) s0 hm.elements := rfl
    rw [this]
    exact hfold f
  · refine ⟨hc', ?_, ?_⟩
    · rw [hops', hpl', hmpdef]
      have h4 : kSizeChange = 4 := rfl
      have h2 : kDensity = 2 := rfl
      rw [h4, h2]
      split
      · omega
      · omega
    · rw [hpl', hel', hmpdef]
      have h4 : kSizeChange = 4 := rfl
      have h2 : kDensity = 2 := rfl
      rw [h4, h2]
      split
      · right
        constructor
        · omega
        · rfl
      · left
        omega

end HashMapVerify

namespace HashMapVerify

theorem inv_ops_lt {hm : HM} (hi : Inv hm) :
    hm.operations_complete < hm.place.length := by
  have h := hi.density
  have h2 : kDensity = 2 := rfl
  rw [h2] at h
  omega

theorem insert_spec {hm : HM} (hi : Inv hm) (v : Nat × Nat) :
    ∃ hm', insertW (RebuildF 1) hm v = some hm' ∧ Inv hm' ∧
      hm'.hasher = hm.hasher ∧
      ((v.1 ∈ keys hm ∧ hm' = hm) ∨
        (v.1 ∉ keys hm ∧ hm'.elements = hm.elements ++ [v])) ∧
      (hm'.place.length = hm.place.length ∨
        hm'.place.length = (if hm'.elements.length = 0 then 1
          else hm'.elements.length * kSizeChange)) := by
  have hops : hm.operations_complete < hm.place.length := inv_ops_lt hi
  by_cases hk : v.1 ∈ keys hm
  · obtain ⟨p, e, hp, hpe⟩ := mem_keys_iff.mp hk
    have hnoop : insertW (RebuildF 1) hm (e.1, v.2) = some hm :=
      insert_mem_noop hi.core hops hp v.2 _
    have hv : (e.1, v.2) = v := by rw [hpe]
    rw [hv] at hnoop
    exact ⟨hm, hnoop, hi, rfl, Or.inl ⟨hk, rfl⟩, Or.inl rfl⟩
  · obtain ⟨id, hfind, hemp, hcmid, hinsEq⟩ := insert_fresh_step hi.core hops hk
    by_cases hcond : (hm.place.set id (Slot.occ hm.elements.length)).length ≤
        (hm.operations_complete + 1) * kDensity
    · obtain ⟨hm', hall, hinv', hel', hh', hops', hpl', _, _⟩ :=
        rebuild_total hcmid.nodup
      refine ⟨hm', ?_, hinv', ?_, Or.inr ⟨hk, ?_⟩, Or.inr ?_⟩
      · rw [hinsEq _, makeGoodBig_fire _ hcond]
        exact hall _
      · exact hh'
      · rw [hel']
      · rw [hpl', hel']
    · refine ⟨{ hm with
          operations_complete := hm.operations_complete + 1,
          place := hm.place.set id (Slot.occ hm.elements.length),
          rev_place := hm.rev_place.set hm.elements.length id,
          elements := hm.elements ++ [v] }, ?_, ?_, rfl, Or.inr ⟨hk, rfl⟩,
          Or.inl (by simp)⟩
      · rw [hinsEq _]
        exact makeGoodBig_skip _ (by simpa using hcond)
      · refine ⟨hcmid, by simpa using hcond, ?_⟩
        simp only [List.length_set, List.length_append, List.length_cons,
          List.length_nil]
        rcases hi.sizeBound with hsb | ⟨hn0, hm1⟩
        · left
          have h4 : kSizeChange = 4 := rfl
          have h2 : kDensity = 2 := rfl
          rw [h4, h2] at hsb ⊢
          omega
        · exfalso
          apply hcond
          rw [List.length_set, hm1]
          have h2 : kDensity = 2 := rfl
          rw [h2]
          omega

end HashMapVerify

namespace HashMapVerify

theorem listSwap_eq {α : Type} {l : List α} {i j : Nat} (hi : i < l.length)
    (hj : j < l.length) :
    listSwap l i j = (l.set i l[j]).set j l[i] := by
  simp [listSwap, List.getElem?_eq_getElem hi, List.getElem?_eq_getElem hj]

theorem listSwap_length {α : Type} (l : List α) (i j : Nat) :
    (listSwap l i j).length = l.length := by
  rw [listSwap]
  rcases h1 : l[i]? with _ | a <;> rcases h2 : l[j]? with _ | b <;> simp

theorem filter_length_set_same :
    ∀ (l : List Slot) (i : Nat) (b : Slot), l[i]? = some b → b ≠ Slot.kNoValue →
      ∀ (a : Slot), a ≠ Slot.kNoValue →
      ((l.set i a).filter (fun s => s ≠ Slot.kNoValue)).length =
        (l.filter (fun s => s ≠ Slot.kNoValue)).length := by
  intro l
  induction l with
  | nil => intro i b h; simp at h
  | cons hd tl ih =>
    intro i b h hb a ha
    cases i with
    | zero =>
      have hhd : hd = b := by simpa using h
      subst hhd
      simp [List.set, List.filter_cons, hb, ha]
    | succ i =>
      have h' : tl[i]? = some b := by simpa using h
      have ihv := ih i b h' hb a ha
      by_cases hhd : hd = Slot.kNoValue
      · subst hhd
        simp only [List.set, List.filter_cons]
        simpa using ihv
      · simp only [List.set, List.filter_cons]
        have hdec : decide (hd ≠ Slot.kNoValue) = true := by simp [hhd]
        rw [hdec]
        simp only [if_true, List.length_cons]
        omega

theorem swapRemove_length {el : List (Nat × Nat)} {p : Nat} (hp : p < el.length) :
    ((listSwap el (el.length - 1) p).dropLast).length = el.length - 1 := by
  have hn1 : el.length - 1 < el.length := by omega
  rw [listSwap_eq hn1 hp]
  simp

theorem swapRemove_getElem {el : List (Nat × Nat)} {p : Nat}
    (hp : p < el.length) :
    ∀ q, q < el.length - 1 →
      ((listSwap el (el.length - 1) p).dropLast)[q]? =
        (if p = q then el[el.length - 1]? else el[q]?) := by
  intro q hq
  have hn1 : el.length - 1 < el.length := by omega
  rw [listSwap_eq hn1 hp]
  rw [List.getElem?_dropLast]
  simp only [List.length_set]
  rw [if_pos (by omega)]
  by_cases hpq : p = q
  · subst hpq
    rw [List.getElem?_set_eq_of_lt _ (by simpa using hp)]
    rw [if_pos rfl]
    exact (List.getElem?_eq_getElem hn1).symm
  · rw [List.getElem?_set_ne hpq]
    rw [List.getElem?_set_ne (by omega)]
    rw [if_neg hpq]

theorem swapRemove_nodup {el : List (Nat × Nat)} {p : Nat} (hp : p < el.length)
    (hnd : (el.map Prod.fst).Nodup) :
    (((listSwap el (el.length - 1) p).dropLast).map Prod.fst).Nodup := by
  rw [List.nodup_iff_get?_ne_get?]
  intro i j hij hjlen hEq
  rw [List.get?_eq_getElem?, List.get?_eq_getElem?] at hEq
  have hjlen' : j < el.length - 1 := by
    have hsl := listSwap_length el (el.length - 1) p
    simp only [List.length_map, List.length_dropLast, hsl] at hjlen
    exact hjlen
  have hilen' : i < el.length - 1 := by omega
  rw [List.getElem?_map, List.getElem?_map] at hEq
  rw [swapRemove_getElem hp i hilen', swapRemove_getElem hp j hjlen'] at hEq
  have hoi : ∀ q, q < el.length - 1 →
      (if p = q then el[el.length - 1]? else el[q]?) =
        el[if p = q then el.length - 1 else q]? := by
    intro q hq
    by_cases hpq : p = q <;> simp [hpq]
  rw [hoi i hilen', hoi j hjlen'] at hEq
  set a := if p = i then el.length - 1 else i with ha
  set b := if p = j then el.length - 1 else j with hb
  have halt : a < el.length := by rw [ha]; split <;> omega
  have hblt : b < el.length := by rw [hb]; split <;> omega
  rw [List.getElem?_eq_getElem halt, List.getElem?_eq_getElem hblt] at hEq
  simp only [Option.map_some'] at hEq
  have hab : a = b :=
    nodup_key_inj hnd (List.getElem?_eq_getElem halt)
      (List.getElem?_eq_getElem hblt) (Option.some.inj hEq)
  rw [ha, hb] at hab
  by_cases hpi : p = i
  · by_cases hpj : p = j
    · omega
    · rw [if_pos hpi, if_neg hpj] at hab
      omega
  · by_cases hpj : p = j
    · rw [if_neg hpi, if_pos hpj] at hab
      omega
    · rw [if_neg hpi, if_neg hpj] at hab
      omega

theorem delete_place_not_empty {pl : List Slot} {rp id p : Nat} (s : Nat)
    (h : pl[s]? ≠ some Slot.kNoValue) :
    ((pl.set rp (Slot.occ p)).set id Slot.kDeleted)[s]? ≠ some Slot.kNoValue := by
  by_cases hsid : id = s
  · subst hsid
    by_cases hlt : id < pl.length
    · rw [List.getElem?_set_eq_of_lt _ (by simpa using hlt)]
      simp
    · rw [List.getElem?_eq_none_iff.mpr (by simp; omega)]
      simp
  · rw [List.getElem?_set_ne hsid]
    by_cases hsrp : rp = s
    · subst hsrp
      by_cases hlt : rp < pl.length
      · rw [List.getElem?_set_eq_of_lt _ hlt]
        simp
      · rw [List.getElem?_eq_none_iff.mpr (by simp; omega)]
        simp
    · rw [List.getElem?_set_ne hsrp]
      exact h

theorem makeGoodSmall_skip {hm : HM}
    (h : hm.place.length ≤ hm.elements.length * kSizeChange * kDensity) :
    MakeGoodSmall hm = some hm := by
  simp [MakeGoodSmall]
  omega

theorem makeGoodSmall_fire {hm : HM}
    (h : hm.elements.length * kSizeChange * kDensity < hm.place.length) :
    MakeGoodSmall hm = RebuildF 1 hm := by
  simp [MakeGoodSmall, h]

end HashMapVerify

namespace HashMapVerify

theorem coreInv_delete {hm : HM} (hc : CoreInv hm)
    {id p : Nat} (hocc : hm.place[id]? = some (Slot.occ p)) :
    ∃ rp, hm.rev_place[hm.elements.length - 1]? = some rp ∧
      CoreInv { hm with
        elements := (listSwap hm.elements (hm.elements.length - 1) p).dropLast,
        place := (hm.place.set rp (Slot.occ p)).set id Slot.kDeleted,
        rev_place := hm.rev_place.set p rp } := by
  obtain ⟨hpn, hrevp⟩ := hc.occ_valid id p hocc
  have hidlt : id < hm.place.length := (List.getElem?_eq_some.mp hocc).1
  have hn1 : hm.elements.length - 1 < hm.elements.length := by omega
  obtain ⟨rp, hrev1, hocc1⟩ := hc.rev_valid (hm.elements.length - 1) hn1
  have hrplt : rp < hm.place.length := (List.getElem?_eq_some.mp hocc1).1
  have hprevlt : p < hm.rev_place.length := (List.getElem?_eq_some.mp hrevp).1
  have hrp_of_last : p = hm.elements.length - 1 → rp = id := by
    intro h
    rw [← h] at hrev1
    rw [hrevp] at hrev1
    exact (Option.some.inj hrev1).symm
  have hlast_of_rp : rp = id → p = hm.elements.length - 1 := by
    intro h
    rw [h, hocc] at hocc1
    exact Slot.occ.inj (Option.some.inj hocc1)
  have hplace : ∀ j, ((hm.place.set rp (Slot.occ p)).set id Slot.kDeleted)[j]? =
      (if id = j then (if j < hm.place.length then some Slot.kDeleted else none)
        else if rp = j then some (Slot.occ p) else hm.place[j]?) := by
    intro j
    by_cases hj1 : id = j
    · subst hj1
      rw [if_pos rfl]
      by_cases hlt : id < hm.place.length
      · rw [List.getElem?_set_eq_of_lt _ (by simpa using hlt), if_pos hlt]
      · rw [List.getElem?_eq_none_iff.mpr (by simp; omega), if_neg hlt]
    · rw [if_neg hj1, List.getElem?_set_ne hj1]
      by_cases hj2 : rp = j
      · subst hj2
        rw [List.getElem?_set_eq_of_lt _ hrplt, if_pos rfl]
      · rw [List.getElem?_set_ne hj2, if_neg hj2]
  refine ⟨rp, hrev1, ?_⟩
  constructor
  · simpa using hc.m_pos
  · simp [List.length_set, hc.rev_len]
  · simp only [swapRemove_length hpn, List.length_set]
    have := hc.n_le_ops
    omega
  · have hcell : (hm.place.set rp (Slot.occ p))[id]? = some (Slot.occ p) := by
      by_cases h : rp = id
      · subst h
        rw [List.getElem?_set_eq_of_lt _ hrplt]
      · rw [List.getElem?_set_ne h]
        exact hocc
    have hstep1 := filter_length_set_same hm.place rp _ hocc1 (by simp)
      (Slot.occ p) (by simp)
    have hstep2 := filter_length_set_same (hm.place.set rp (Slot.occ p)) id _
      hcell (by simp) Slot.kDeleted (by simp)
    simp only
    rw [hstep2, hstep1]
    exact hc.countNonEmpty
  · intro j q hq
    simp only at hq
    rw [hplace j] at hq
    simp only [swapRemove_length hpn]
    by_cases hj1 : id = j
    · rw [if_pos hj1] at hq
      split at hq
      · exact Slot.noConfusion (Option.some.inj hq)
      · exact Option.noConfusion hq
    · rw [if_neg hj1] at hq
      by_cases hj2 : rp = j
      · rw [if_pos hj2] at hq
        have hqp : q = p := by
          have h2 := Option.some.inj hq
          injection h2 with h3
          omega
        subst hqp
        have hpne : q ≠ hm.elements.length - 1 := by
          intro h
          exact hj1 ((hrp_of_last h).symm.trans hj2)
        refine ⟨by omega, ?_⟩
        rw [List.getElem?_set_eq_of_lt _ hprevlt, hj2]
      · rw [if_neg hj2] at hq
        obtain ⟨hqn, hqrev⟩ := hc.occ_valid j q hq
        have hqlast : q ≠ hm.elements.length - 1 := by
          intro h
          rw [h, hrev1] at hqrev
          exact hj2 (Option.some.inj hqrev)
        have hqp : q ≠ p := by
          intro h
          rw [h, hrevp] at hqrev
          exact hj1 (Option.some.inj hqrev)
        refine ⟨by omega, ?_⟩
        rw [List.getElem?_set_ne (fun h => hqp h.symm)]
        exact hqrev
  · intro q hq
    simp only [swapRemove_length hpn] at hq
    simp only
    by_cases hqp : q = p
    · subst hqp
      have hrpid : rp ≠ id := by
        intro h
        have := hlast_of_rp h
        omega
      refine ⟨rp, ?_, ?_⟩
      · rw [List.getElem?_set_eq_of_lt _ hprevlt]
      · rw [hplace rp, if_neg (fun h => hrpid h.symm), if_pos rfl]
    · obtain ⟨j, hrevq, hoccq⟩ := hc.rev_valid q (by omega)
      have hjid : j ≠ id := by
        intro h
        rw [h, hocc] at hoccq
        exact hqp (Slot.occ.inj (Option.some.inj hoccq)).symm
      have hjrp : j ≠ rp := by
        intro h
        rw [h, hocc1] at hoccq
        have h3 := Slot.occ.inj (Option.some.inj hoccq)
        omega
      refine ⟨j, ?_, ?_⟩
      · rw [List.getElem?_set_ne (fun h => hqp h.symm)]
        exact hrevq
      · rw [hplace j, if_neg (fun h => hjid h.symm), if_neg (fun h => hjrp h.symm)]
        exact hoccq
  · exact swapRemove_nodup hpn hc.nodup
  · intro q e' hq'
    have hqlt : q < hm.elements.length - 1 := by
      have := (List.getElem?_eq_some.mp hq').1
      simpa [swapRemove_length hpn] using this
    simp only at hq'
    rw [swapRemove_getElem hpn q hqlt] at hq'
    have hslot_eq : ∀ (key t : Nat),
        slotOf { hm with
          elements := (listSwap hm.elements (hm.elements.length - 1) p).dropLast,
          place := (hm.place.set rp (Slot.occ p)).set id Slot.kDeleted,
          rev_place := hm.rev_place.set p rp } key t = slotOf hm key t := by
      intro key t
      simp [slotOf]
    simp only [hslot_eq, List.length_set]
    by_cases hqp : p = q
    · rw [if_pos hqp] at hq'
      obtain ⟨d, j, hd, hrev, hslot, hpath⟩ := hc.chain (hm.elements.length - 1) e' hq'
      have hjrp : j = rp := by
        rw [hrev1] at hrev
        exact (Option.some.inj hrev).symm
      refine ⟨d, rp, hd, ?_, by rw [← hjrp]; exact hslot, ?_⟩
      · rw [← hqp]
        rw [List.getElem?_set_eq_of_lt _ hprevlt]
      · intro t ht
        exact delete_place_not_empty _ (hpath t ht)
    · rw [if_neg hqp] at hq'
      obtain ⟨d, j, hd, hrev, hslot, hpath⟩ := hc.chain q e' hq'
      refine ⟨d, j, hd, ?_, hslot, ?_⟩
      · rw [List.getElem?_set_ne hqp]
        exact hrev
      · intro t ht
        exact delete_place_not_empty _ (hpath t ht)

end HashMapVerify

namespace HashMapVerify

theorem delete_eq {hm : HM} {id p rp : Nat}
    (hocc : hm.place[id]? = some (Slot.occ p))
    (hrev1 : hm.rev_place[hm.elements.length - 1]? = some rp) :
    DeleteElement hm id = MakeGoodSmall { hm with
      elements := (listSwap hm.elements (hm.elements.length - 1) p).dropLast,
      place := (hm.place.set rp (Slot.occ p)).set id Slot.kDeleted,
      rev_place := hm.rev_place.set p rp } := by
  simp [DeleteElement, hocc, hrev1]

theorem erase_absent {hm : HM} (hi : Inv hm) {k : Nat} (hk : k ∉ keys hm) :
    eraseKey hm k = some hm := by
  obtain ⟨j, hfind, hemp⟩ := findPlace_not_mem hi.core (inv_ops_lt hi) (not_mem_keys hk)
  simp [eraseKey, hfind, hemp]

theorem erase_mem {hm : HM} (hi : Inv hm) {p : Nat} {e : Nat × Nat}
    (he : hm.elements[p]? = some e) :
    ∃ hm', eraseKey hm e.1 = some hm' ∧ Inv hm' ∧ hm'.hasher = hm.hasher ∧
      hm'.elements.length = hm.elements.length - 1 ∧
      (∀ q, q < hm.elements.length - 1 →
        hm'.elements[q]? =
          (if p = q then hm.elements[hm.elements.length - 1]? else hm.elements[q]?)) ∧
      (hm'.place.length = hm.place.length ∨
        hm'.place.length = (if hm'.elements.length = 0 then 1
          else hm'.elements.length * kSizeChange)) := by
  obtain ⟨j, hfind, hocc, _⟩ := findPlace_mem hi.core (inv_ops_lt hi) he
  obtain ⟨rp, hrev1, hcds⟩ := coreInv_delete hi.core hocc
  have hpn : p < hm.elements.length := (hi.core.occ_valid j p hocc).1
  have her : eraseKey hm e.1 = DeleteElement hm j := by
    simp [eraseKey, hfind, hocc]
  rw [her, delete_eq hocc hrev1]
  have hrf1 : ∀ s : HM, RebuildF 1 s = RebuildW (fun h => RebuildF 0 h) s :=
    fun s => rfl
  simp only [MakeGoodSmall, swapRemove_length hpn, List.length_set]
  by_cases hcond : (hm.elements.length - 1) * kSizeChange * kDensity < hm.place.length
  · rw [if_pos hcond, hrf1]
    obtain ⟨hm', hall, hinv', hel', hh', _, hpl', _, _⟩ := rebuild_total hcds.nodup
    refine ⟨hm', hall _, hinv', hh', ?_, ?_, Or.inr ?_⟩
    · rw [hel']
      exact swapRemove_length hpn
    · intro q hq
      rw [hel']
      exact swapRemove_getElem hpn q hq
    · rw [hpl', hel']
  · rw [if_neg hcond]
    refine ⟨_, rfl, ⟨hcds, ?_, ?_⟩, rfl, ?_, ?_, Or.inl (by simp)⟩
    · simpa using hi.density
    · left
      simp only [List.length_set, swapRemove_length hpn]
      omega
    · exact swapRemove_length hpn
    · intro q hq
      exact swapRemove_getElem hpn q hq

end HashMapVerify

namespace HashMapVerify

theorem find?_key_eq_some_iff :
    ∀ {l : List (Nat × Nat)}, ((l.map Prod.fst).Nodup) → ∀ {k v : Nat},
      ((l.find? (fun e => e.1 == k)).map Prod.snd = some v ↔ (k, v) ∈ l) := by
  intro l
  induction l with
  | nil => intro _ k v; simp
  | cons hd tl ih =>
    intro hnd k v
    have hnd' : (tl.map Prod.fst).Nodup := by
      simp only [List.map_cons, List.nodup_cons] at hnd
      exact hnd.2
    have hhd : hd.1 ∉ tl.map Prod.fst := by
      simp only [List.map_cons, List.nodup_cons] at hnd
      exact hnd.1
    rw [List.find?_cons]
    by_cases hk : hd.1 = k
    · have hbeq : (hd.1 == k) = true := by simp [hk]
      simp only [hbeq]
      simp only [Option.map_some', Option.some.injEq, List.mem_cons]
      constructor
      · intro h
        left
        rw [← hk, ← h]
      · intro h
        rcases h with h | h
        · rw [← h]
        · exfalso
          apply hhd
          rw [hk]
          exact List.mem_map.mpr ⟨(k, v), h, rfl⟩
    · have hbeq : (hd.1 == k) = false := by simp [hk]
      simp only [hbeq]
      rw [ih hnd']
      simp only [List.mem_cons]
      constructor
      · intro h; exact Or.inr h
      · intro h
        rcases h with h | h
        · exfalso
          apply hk
          rw [← h]
        · exact h

theorem lookup_eq_some_iff {hm : HM} (hnd : (hm.elements.map Prod.fst).Nodup)
    {k v : Nat} :
    lookup hm k = some v ↔ (k, v) ∈ hm.elements :=
  find?_key_eq_some_iff hnd

theorem lookup_eq_none_iff {hm : HM} {k : Nat} :
    lookup hm k = none ↔ k ∉ keys hm := by
  rw [lookup, Option.map_eq_none', List.find?_eq_none, keys]
  constructor
  · intro h hk
    obtain ⟨e, he, hfst⟩ := List.mem_map.mp hk
    exact h e he (by simp [hfst])
  · intro h x hx hbeq
    apply h
    apply List.mem_map.mpr
    exact ⟨x, hx, by simpa using hbeq⟩

theorem lookup_isSome_of_mem {hm : HM} {k : Nat} (hk : k ∈ keys hm) :
    ∃ v, lookup hm k = some v := by
  rcases hv : lookup hm k with _ | v
  · exact absurd (lookup_eq_none_iff.mp hv) (by simpa using hk)
  · exact ⟨v, rfl⟩

theorem set_getElem?_self {α : Type} :
    ∀ (l : List α) (i : Nat) (a : α), l[i]? = some a → l.set i a = l := by
  intro l
  induction l with
  | nil => intro i a h; simp at h
  | cons hd tl ih =>
    intro i a h
    cases i with
    | zero =>
      have : hd = a := by simpa using h
      simp [List.set, this]
    | succ i =>
      have h' : tl[i]? = some a := by simpa using h
      simp [List.set, ih i a h']

theorem addElement_spec {hm : HM} (hi : Inv hm) {v : Nat × Nat} {id : Nat}
    (hfind : FindPlace hm v.1 = some id)
    (hemp : hm.place[id]? = some Slot.kNoValue) :
    ∃ hm', AddElementW (RebuildF 1) hm id v = some hm' ∧ Inv hm' ∧
      hm'.hasher = hm.hasher ∧ hm'.elements = hm.elements ++ [v] ∧
      (hm'.place.length = hm.place.length ∨
        hm'.place.length = (if hm'.elements.length = 0 then 1
          else hm'.elements.length * kSizeChange)) := by
  have hcmid := coreInv_add hi.core (inv_ops_lt hi) hfind hemp
  have hunf : AddElementW (RebuildF 1) hm id v = MakeGoodBigW (RebuildF 1)
      { hm with
        operations_complete := hm.operations_complete + 1,
        place := hm.place.set id (Slot.occ hm.elements.length),
        rev_place := hm.rev_place.set hm.elements.length id,
        elements := hm.elements ++ [v] } := rfl
  rw [hunf]
  have hrf1 : ∀ s : HM, RebuildF 1 s = RebuildW (fun h => RebuildF 0 h) s :=
    fun s => rfl
  simp only [MakeGoodBigW, List.length_set]
  by_cases hcond : hm.place.length ≤ (hm.operations_complete + 1) * kDensity
  · rw [if_pos hcond, hrf1]
    obtain ⟨hm', hall, hinv', hel', hh', _, hpl', _, _⟩ := rebuild_total hcmid.nodup
    refine ⟨hm', hall _, hinv', hh', by rw [hel'], Or.inr (by rw [hpl', hel'])⟩
  · rw [if_neg hcond]
    refine ⟨_, rfl, ⟨hcmid, by simpa using (by omega :
      (hm.operations_complete + 1) * kDensity < hm.place.length), ?_⟩, rfl, rfl,
      Or.inl (by simp)⟩
    simp only [List.length_set, List.length_append, List.length_cons, List.length_nil]
    rcases hi.sizeBound with hsb | ⟨hn0, hm1⟩
    · left
      have h4 : kSizeChange = 4 := rfl
      have h2 : kDensity = 2 := rfl
      rw [h4, h2] at hsb ⊢
      omega
    · exfalso
      apply hcond
      rw [hm1]
      have h2 : kDensity = 2 := rfl
      rw [h2]
      omega

theorem indexLoc_mem {hm : HM} (hi : Inv hm) {p : Nat} {e : Nat × Nat}
    (he : hm.elements[p]? = some e) :
    indexLoc hm e.1 = some (hm, p) := by
  obtain ⟨j, hfind, hocc, _⟩ := findPlace_mem hi.core (inv_ops_lt hi) he
  simp [indexLoc, hfind, hocc]

theorem indexLoc_fresh {hm : HM} (hi : Inv hm) {k : Nat} (hk : k ∉ keys hm) :
    ∃ hm', indexLoc hm k = some (hm', hm.elements.length) ∧ Inv hm' ∧
      hm'.hasher = hm.hasher ∧ hm'.elements = hm.elements ++ [(k, 0)] ∧
      (hm'.place.length = hm.place.length ∨
        hm'.place.length = (if hm'.elements.length = 0 then 1
          else hm'.elements.length * kSizeChange)) := by
  obtain ⟨id, hfind, hemp⟩ :=
    findPlace_not_mem hi.core (inv_ops_lt hi) (not_mem_keys hk)
  obtain ⟨hm1, hadd, hinv1, hh1, hel1, hpl1⟩ :=
    addElement_spec hi (v := (k, 0)) hfind hemp
  have hatn : hm1.elements[hm.elements.length]? = some (k, 0) := by
    rw [hel1]
    exact List.getElem?_concat_length _ _
  obtain ⟨id2, hfind2, hocc2, _⟩ :=
    findPlace_mem hinv1.core (inv_ops_lt hinv1) hatn
  refine ⟨hm1, ?_, hinv1, hh1, hel1, hpl1⟩
  simp [indexLoc, hfind, hemp, hadd, hfind2, hocc2]

theorem setValue_inv {hm : HM} (hi : Inv hm) {p : Nat} {e : Nat × Nat}
    (he : hm.elements[p]? = some e) (v : Nat) :
    Inv { hm with elements := hm.elements.set p (e.1, v) } := by
  have hkeys : (hm.elements.set p (e.1, v)).map Prod.fst = hm.elements.map Prod.fst := by
    rw [List.map_set]
    apply set_getElem?_self
    rw [List.getElem?_map, he]
    rfl
  have hlen : (hm.elements.set p (e.1, v)).length = hm.elements.length :=
    List.length_set _ _ _
  refine ⟨⟨?_, ?_, ?_, ?_, ?_, ?_, ?_, ?_⟩, ?_, ?_⟩
  · simpa using hi.core.m_pos
  · simpa using hi.core.rev_len
  · simpa [hlen] using hi.core.n_le_ops
  · simpa using hi.core.countNonEmpty
  · intro j q hq
    obtain ⟨hql, hqrev⟩ := hi.core.occ_valid j q hq
    exact ⟨by simpa [hlen] using hql, hqrev⟩
  · intro q hq
    exact hi.core.rev_valid q (by simpa [hlen] using hq)
  · simpa [hkeys] using hi.core.nodup
  · intro q e' hq'
    have hslot_eq : ∀ (key t : Nat),
        slotOf { hm with elements := hm.elements.set p (e.1, v) } key t =
          slotOf hm key t := by
      intro key t
      simp [slotOf]
    simp only [hslot_eq]
    by_cases hpq : p = q
    · subst hpq
      have hplt : p < hm.elements.length := (List.getElem?_eq_some.mp he).1
      rw [List.getElem?_set_eq_of_lt _ hplt] at hq'
      have he' : e' = (e.1, v) := (Option.some.inj hq').symm
      subst he'
      obtain ⟨d, j, hd, hrev, hslot, hpath⟩ := hi.core.chain p e he
      exact ⟨d, j, hd, hrev, hslot, hpath⟩
    · rw [List.getElem?_set_ne hpq] at hq'
      obtain ⟨d, j, hd, hrev, hslot, hpath⟩ := hi.core.chain q e' hq'
      exact ⟨d, j, hd, hrev, hslot, hpath⟩
  · simpa using hi.density
  · simpa [hlen] using hi.sizeBound

end HashMapVerify

namespace HashMapVerify

theorem indexAssign_spec {hm : HM} (hi : Inv hm) (k v : Nat) :
    ∃ hm', indexAssign hm k v = some hm' ∧ Inv hm' ∧ hm'.hasher = hm.hasher ∧
      lookup hm' k = some v ∧
      (∀ k' w, k' ≠ k → lookup hm k' = some w → lookup hm' k' = some w) ∧
      (hm'.place.length = hm.place.length ∨
        hm'.place.length = (if hm'.elements.length = 0 then 1
          else hm'.elements.length * kSizeChange)) := by
  by_cases hk : k ∈ keys hm
  · obtain ⟨p, e, hp, hpe⟩ := mem_keys_iff.mp hk
    have hloc : indexLoc hm k = some (hm, p) := by
      rw [← hpe]
      exact indexLoc_mem hi hp
    have hinv' := setValue_inv hi hp v
    have hplt : p < hm.elements.length := (List.getElem?_eq_some.mp hp).1
    refine ⟨_, by simp [indexAssign, hloc, hp], hinv', rfl, ?_, ?_, Or.inl rfl⟩
    · apply (lookup_eq_some_iff hinv'.core.nodup).mpr
      apply List.mem_iff_getElem?.mpr
      refine ⟨p, ?_⟩
      simp only
      rw [List.getElem?_set_eq_of_lt _ hplt, hpe]
    · intro k' w hk' hl
      apply (lookup_eq_some_iff hinv'.core.nodup).mpr
      obtain ⟨q, hq⟩ := List.mem_iff_getElem?.mp
        ((lookup_eq_some_iff hi.core.nodup).mp hl)
      have hqp : p ≠ q := by
        intro h
        rw [← h, hp] at hq
        have h2 := Option.some.inj hq
        apply hk'
        rw [← hpe, h2]
      apply List.mem_iff_getElem?.mpr
      refine ⟨q, ?_⟩
      simp only
      rw [List.getElem?_set_ne hqp]
      exact hq
  · obtain ⟨hm1, hloc, hinv1, hh1, hel1, hpl1⟩ := indexLoc_fresh hi hk
    have hatn : hm1.elements[hm.elements.length]? = some (k, 0) := by
      rw [hel1]
      exact List.getElem?_concat_length _ _
    have hinv2 := setValue_inv hinv1 hatn v
    have hlen1 : hm1.elements.length = hm.elements.length + 1 := by
      rw [hel1]
      simp
    refine ⟨_, by simp [indexAssign, hloc, hatn], hinv2, hh1, ?_, ?_, ?_⟩
    · apply (lookup_eq_some_iff hinv2.core.nodup).mpr
      apply List.mem_iff_getElem?.mpr
      refine ⟨hm.elements.length, ?_⟩
      simp only
      rw [List.getElem?_set_eq_of_lt _ (by omega)]
    · intro k' w hk' hl
      apply (lookup_eq_some_iff hinv2.core.nodup).mpr
      obtain ⟨q, hq⟩ := List.mem_iff_getElem?.mp
        ((lookup_eq_some_iff hi.core.nodup).mp hl)
      have hql : q < hm.elements.length := (List.getElem?_eq_some.mp hq).1
      apply List.mem_iff_getElem?.mpr
      refine ⟨q, ?_⟩
      simp only
      rw [List.getElem?_set_ne (by omega), hel1,
        List.getElem?_append_left hql]
      exact hq
    · rcases hpl1 with h | h
      · exact Or.inl (by simpa using h)
      · refine Or.inr ?_
        have hls : (hm1.elements.set hm.elements.length (k, v)).length =
            hm1.elements.length := List.length_set _ _ _
        show hm1.place.length =
          if (hm1.elements.set hm.elements.length (k, v)).length = 0 then 1
          else (hm1.elements.set hm.elements.length (k, v)).length * kSizeChange
        rw [hls]
        exact h

theorem clear_spec (hm : HM) :
    ∃ hm', clear hm = some hm' ∧ Inv hm' ∧ hm'.hasher = hm.hasher ∧
      hm'.elements = [] ∧ hm'.place.length = 1 := by
  have h : clear hm = RebuildW (fun h => RebuildF 0 h) { hm with elements := [] } :=
    rfl
  rw [h]
  obtain ⟨hm', hall, hinv, hel, hh, _, hpl, _, _⟩ :=
    @rebuild_total { hm with elements := [] } (by simp)
  exact ⟨hm', hall _, hinv, hh, by simpa using hel, by simpa using hpl⟩

theorem emptyTable_spec (hasher : Nat → Nat) :
    ∃ hm0, emptyTable hasher = some hm0 ∧ Inv hm0 ∧ hm0.hasher = hasher ∧
      hm0.elements = [] ∧ hm0.place.length = 1 := by
  have h : emptyTable hasher = RebuildW (fun h => RebuildF 0 h)
      ⟨hasher, [], [], [], 0⟩ := rfl
  rw [h]
  obtain ⟨hm', hall, hinv, hel, hh, _, hpl, _, _⟩ :=
    @rebuild_total ⟨hasher, [], [], [], 0⟩ (by simp)
  exact ⟨hm', hall _, hinv, hh, by simpa using hel, by simpa using hpl⟩

theorem foldl_insert_inv :
    ∀ (l : List (Nat × Nat)) {hm : HM}, Inv hm →
      ∃ hm', List.foldlM (fun acc e => insertW (RebuildF 1) acc e) hm l = some hm' ∧
        Inv hm' ∧ hm'.hasher = hm.hasher := by
  intro l
  induction l with
  | nil => intro hm hi; exact ⟨hm, rfl, hi, rfl⟩
  | cons v rest ih =>
    intro hm hi
    obtain ⟨hm1, hins, hinv1, hh1, _, _⟩ := insert_spec hi v
    obtain ⟨hm', hfold, hinv', hh'⟩ := ih hinv1
    refine ⟨hm', ?_, hinv', hh'.trans hh1⟩
    rw [List.foldlM_cons, hins]
    simpa using hfold

theorem fromList_spec (hasher : Nat → Nat) (l : List (Nat × Nat)) :
    ∃ hm, fromList hasher l = some hm ∧ Inv hm ∧ hm.hasher = hasher := by
  obtain ⟨hm0, hemp, hinv0, hh0, _, _⟩ := emptyTable_spec hasher
  obtain ⟨hm, hfold, hinv, hh⟩ := foldl_insert_inv l hinv0
  refine ⟨hm, ?_, hinv, hh.trans hh0⟩
  rw [fromList, hemp]
  exact hfold

end HashMapVerify

namespace HashMapVerify

theorem applyOp_spec {hm : HM} (hi : Inv hm) (o : Op) :
    ∃ hm', applyOp hm o = some hm' ∧ Inv hm' ∧ hm'.hasher = hm.hasher ∧
      (hm'.place.length = hm.place.length ∨
        hm'.place.length = (if hm'.elements.length = 0 then 1
          else hm'.elements.length * kSizeChange)) := by
  cases o with
  | insert k v =>
    obtain ⟨hm', hins, hinv', hh', _, hfr⟩ := insert_spec hi (k, v)
    exact ⟨hm', hins, hinv', hh', hfr⟩
  | erase k =>
    by_cases hk : k ∈ keys hm
    · obtain ⟨p, e, hp, hpe⟩ := mem_keys_iff.mp hk
      obtain ⟨hm', herase, hinv', hh', _, _, hfr⟩ := erase_mem hi hp
      rw [hpe] at herase
      exact ⟨hm', herase, hinv', hh', hfr⟩
    · exact ⟨hm, erase_absent hi hk, hi, rfl, Or.inl rfl⟩
  | clearOp =>
    obtain ⟨hm', hcl, hinv', hh', hel', hpl'⟩ := clear_spec hm
    refine ⟨hm', hcl, hinv', hh', Or.inr ?_⟩
    rw [hel', hpl']
    simp
  | indexRead k =>
    by_cases hk : k ∈ keys hm
    · obtain ⟨p, e, hp, hpe⟩ := mem_keys_iff.mp hk
      have hloc : indexLoc hm k = some (hm, p) := by
        rw [← hpe]
        exact indexLoc_mem hi hp
      refine ⟨hm, ?_, hi, rfl, Or.inl rfl⟩
      simp [applyOp, hloc]
    · obtain ⟨hm', hloc, hinv', hh', _, hfr⟩ := indexLoc_fresh hi hk
      refine ⟨hm', ?_, hinv', hh', hfr⟩
      simp [applyOp, hloc]
  | indexWrite k v =>
    obtain ⟨hm', hia, hinv', hh', _, _, hfr⟩ := indexAssign_spec hi k v
    exact ⟨hm', hia, hinv', hh', hfr⟩
  | findOp k => exact ⟨hm, rfl, hi, rfl, Or.inl rfl⟩
  | atOp k => exact ⟨hm, rfl, hi, rfl, Or.inl rfl⟩

theorem mem_after_erase {hm hm' : HM} {p : Nat} (hp : p < hm.elements.length)
    (hlen : hm'.elements.length = hm.elements.length - 1)
    (hchar : ∀ q, q < hm.elements.length - 1 →
      hm'.elements[q]? =
        (if p = q then hm.elements[hm.elements.length - 1]? else hm.elements[q]?))
    {q : Nat} {x : Nat × Nat} (hq : hm.elements[q]? = some x) (hqp : q ≠ p) :
    x ∈ hm'.elements := by
  have hqn : q < hm.elements.length := (List.getElem?_eq_some.mp hq).1
  apply List.mem_iff_getElem?.mpr
  by_cases hqlast : q = hm.elements.length - 1
  · have hplt : p < hm.elements.length - 1 := by omega
    refine ⟨p, ?_⟩
    rw [hchar p hplt, if_pos rfl, ← hqlast]
    exact hq
  · refine ⟨q, ?_⟩
    rw [hchar q (by omega), if_neg (fun h => hqp h.symm)]
    exact hq

theorem applyOp_preserves {hm hm' : HM} (hi : Inv hm) {k w : Nat} {o : Op}
    (hnt : touchesB k o = false) (hl : lookup hm k = some w)
    (hap : applyOp hm o = some hm') : lookup hm' k = some w := by
  cases o with
  | insert k2 v2 =>
    obtain ⟨hm'', hins, hinv'', _, hcase, _⟩ := insert_spec hi (k2, v2)
    rw [applyOp, hins] at hap
    cases Option.some.inj hap
    rcases hcase with ⟨_, rfl⟩ | ⟨_, hel⟩
    · exact hl
    · apply (lookup_eq_some_iff hinv''.core.nodup).mpr
      rw [hel]
      exact List.mem_append_left _ ((lookup_eq_some_iff hi.core.nodup).mp hl)
  | erase k2 =>
    have hk2 : k2 ≠ k := by simpa [touchesB] using hnt
    by_cases hk : k2 ∈ keys hm
    · obtain ⟨p, e, hp, hpe⟩ := mem_keys_iff.mp hk
      obtain ⟨hm'', herase, hinv'', _, hlen, hchar, _⟩ := erase_mem hi hp
      rw [hpe] at herase
      rw [applyOp, herase] at hap
      cases Option.some.inj hap
      apply (lookup_eq_some_iff hinv''.core.nodup).mpr
      obtain ⟨q, hq⟩ := List.mem_iff_getElem?.mp
        ((lookup_eq_some_iff hi.core.nodup).mp hl)
      have hqp : q ≠ p := by
        intro h
        rw [h, hp] at hq
        have h2 := Option.some.inj hq
        apply hk2
        rw [← hpe, h2]
      exact mem_after_erase (List.getElem?_eq_some.mp hp).1 hlen hchar hq hqp
    · rw [applyOp, erase_absent hi hk] at hap
      cases Option.some.inj hap
      exact hl
  | clearOp => simp [touchesB] at hnt
  | indexRead k2 =>
    by_cases hk : k2 ∈ keys hm
    · obtain ⟨p, e, hp, hpe⟩ := mem_keys_iff.mp hk
      have hloc : indexLoc hm k2 = some (hm, p) := by
        rw [← hpe]
        exact indexLoc_mem hi hp
      rw [applyOp, hloc] at hap
      cases Option.some.inj hap
      exact hl
    · obtain ⟨hm'', hloc, hinv'', _, hel, _⟩ := indexLoc_fresh hi hk
      rw [applyOp, hloc] at hap
      simp only [Option.map_some'] at hap
      cases Option.some.inj hap
      apply (lookup_eq_some_iff hinv''.core.nodup).mpr
      rw [hel]
      exact List.mem_append_left _ ((lookup_eq_some_iff hi.core.nodup).mp hl)
  | indexWrite k2 v2 =>
    have hk2 : k ≠ k2 := by
      intro h
      rw [h] at hnt
      simp [touchesB] at hnt
    obtain ⟨hm'', hia, _, _, _, hpres, _⟩ := indexAssign_spec hi k2 v2
    rw [applyOp, hia] at hap
    cases Option.some.inj hap
    exact hpres k w hk2 hl
  | findOp k2 =>
    rw [applyOp] at hap
    cases Option.some.inj hap
    exact hl
  | atOp k2 =>
    rw [applyOp] at hap
    cases Option.some.inj hap
    exact hl

theorem runOps_inv {ops : List Op} :
    ∀ {hm : HM}, Inv hm →
      ∃ hm', runOps hm ops = some hm' ∧ Inv hm' ∧ hm'.hasher = hm.hasher := by
  induction ops with
  | nil => intro hm hi; exact ⟨hm, rfl, hi, rfl⟩
  | cons o rest ih =>
    intro hm hi
    obtain ⟨hm1, hap, hinv1, hh1, _⟩ := applyOp_spec hi o
    obtain ⟨hm', hrun, hinv', hh'⟩ := ih hinv1
    refine ⟨hm', ?_, hinv', hh'.trans hh1⟩
    rw [runOps, List.foldlM_cons, hap]
    exact hrun

theorem reachable_inv {hm : HM} (h : Reachable hm) : Inv hm := by
  obtain ⟨hasher, l, ops, hrun⟩ := h
  obtain ⟨hm0, hfl, hinv0, _⟩ := fromList_spec hasher l
  rw [hfl] at hrun
  have hrun2 : runOps hm0 ops = some hm := hrun
  obtain ⟨hm1, hrun1, hinv1, _⟩ := runOps_inv hinv0
  rw [hrun1] at hrun2
  cases Option.some.inj hrun2
  exact hinv1

theorem runOps_preserves {ops : List Op} :
    ∀ {hm : HM}, Inv hm → ∀ {k w : Nat},
      (∀ o, o ∈ ops → touchesB k o = false) → lookup hm k = some w →
      ∀ {hm'}, runOps hm ops = some hm' → lookup hm' k = some w := by
  induction ops with
  | nil =>
    intro hm _ k w _ hl hm' hrun
    have : hm = hm' := Option.some.inj (by simpa [runOps] using hrun)
    rw [← this]
    exact hl
  | cons o rest ih =>
    intro hm hi k w hnt hl hm' hrun
    obtain ⟨hm1, hap, hinv1, _, _⟩ := applyOp_spec hi o
    rw [runOps, List.foldlM_cons, hap] at hrun
    have hrun2 : runOps hm1 rest = some hm' := hrun
    have hl1 : lookup hm1 k = some w :=
      applyOp_preserves hi (hnt o (by simp)) hl hap
    exact ih hinv1 (fun o' ho' => hnt o' (by simp [ho'])) hl1 hrun2

end HashMapVerify

namespace HashMapVerify

theorem find_mem {hm : HM} (hi : Inv hm) {p : Nat} {e : Nat × Nat}
    (he : hm.elements[p]? = some e) :
    find hm e.1 = some (some p) := by
  obtain ⟨j, hfind, hocc, _⟩ := findPlace_mem hi.core (inv_ops_lt hi) he
  simp [find, hfind, hocc]

theorem find_absent {hm : HM} (hi : Inv hm) {k : Nat} (hk : k ∉ keys hm) :
    find hm k = some none := by
  obtain ⟨j, hfind, hemp⟩ :=
    findPlace_not_mem hi.core (inv_ops_lt hi) (not_mem_keys hk)
  simp [find, hfind, hemp]

theorem at_mem {hm : HM} (hi : Inv hm) {p : Nat} {e : Nat × Nat}
    (he : hm.elements[p]? = some e) :
    at_ hm e.1 = some (some e.2) := by
  obtain ⟨j, hfind, hocc, _⟩ := findPlace_mem hi.core (inv_ops_lt hi) he
  simp [at_, hfind, hocc, he]

theorem at_absent {hm : HM} (hi : Inv hm) {k : Nat} (hk : k ∉ keys hm) :
    at_ hm k = some none := by
  obtain ⟨j, hfind, hemp⟩ :=
    findPlace_not_mem hi.core (inv_ops_lt hi) (not_mem_keys hk)
  simp [at_, hfind, hemp]

theorem lookup_getElem {hm : HM} (hi : Inv hm) {k v : Nat}
    (hl : lookup hm k = some v) :
    ∃ p : Nat, hm.elements[p]? = some (k, v) := by
  obtain ⟨p, hp⟩ := List.mem_iff_getElem?.mp
    ((lookup_eq_some_iff hi.core.nodup).mp hl)
  exact ⟨p, hp⟩

theorem erase_key_spec {hm : HM} (hi : Inv hm) {k : Nat} (hk : k ∈ keys hm) :
    ∃ hm', eraseKey hm k = some hm' ∧ Inv hm' ∧ hm'.hasher = hm.hasher ∧
      hm'.elements.length = hm.elements.length - 1 ∧
      k ∉ keys hm' ∧
      (∀ k' v, k' ≠ k → lookup hm k' = some v → lookup hm' k' = some v) ∧
      (∀ k', k' ∈ keys hm' → k' ∈ keys hm) := by
  obtain ⟨p, e, hp, hpe⟩ := mem_keys_iff.mp hk
  obtain ⟨hm', herase, hinv', hh', hlen, hchar, _⟩ := erase_mem hi hp
  rw [hpe] at herase
  have hpn : p < hm.elements.length := (List.getElem?_eq_some.mp hp).1
  have hentry : ∀ (q : Nat) (x : Nat × Nat), hm'.elements[q]? = some x →
      ∃ q2 : Nat, q2 ≠ p ∧ hm.elements[q2]? = some x := by
    intro q x hq
    have hqlt : q < hm.elements.length - 1 := by
      have := (List.getElem?_eq_some.mp hq).1
      omega
    rw [hchar q hqlt] at hq
    by_cases hpq : p = q
    · rw [if_pos hpq] at hq
      exact ⟨hm.elements.length - 1, by omega, hq⟩
    · rw [if_neg hpq] at hq
      exact ⟨q, fun h => hpq h.symm, hq⟩
  refine ⟨hm', herase, hinv', hh', hlen, ?_, ?_, ?_⟩
  · intro hmem
    obtain ⟨q, x, hq, hx⟩ := mem_keys_iff.mp hmem
    obtain ⟨q2, hq2p, hq2⟩ := hentry q x hq
    have : q2 = p := nodup_key_inj hi.core.nodup hq2 hp (by rw [hx, hpe])
    exact hq2p this
  · intro k' v hk' hl
    apply (lookup_eq_some_iff hinv'.core.nodup).mpr
    obtain ⟨q, hq⟩ := lookup_getElem hi hl
    have hqp : q ≠ p := by
      intro h
      rw [h, hp] at hq
      have h2 := Option.some.inj hq
      apply hk'
      rw [← hpe, h2]
    exact mem_after_erase hpn hlen hchar hq hqp
  · intro k' hmem
    obtain ⟨q, x, hq, hx⟩ := mem_keys_iff.mp hmem
    obtain ⟨q2, _, hq2⟩ := hentry q x hq
    exact mem_keys_iff.mpr ⟨q2, x, hq2, hx⟩

theorem runOps_insert_list :
    ∀ (ps : List (Nat × Nat)) {hm : HM}, Inv hm →
      (((hm.elements ++ ps).map Prod.fst).Nodup) →
      ∃ hm', runOps hm (ps.map (fun e => Op.insert e.1 e.2)) = some hm' ∧
        Inv hm' ∧ hm'.elements = hm.elements ++ ps ∧ hm'.hasher = hm.hasher := by
  intro ps
  induction ps with
  | nil => intro hm hi _; exact ⟨hm, rfl, hi, by simp, rfl⟩
  | cons v rest ih =>
    intro hm hi hnd
    have hfresh : v.1 ∉ keys hm := by
      intro hmem
      rw [List.map_append, List.nodup_append] at hnd
      exact hnd.2.2 hmem (by simp)
    obtain ⟨hm1, hins, hinv1, hh1, hcase, _⟩ := insert_spec hi v
    have hel1 : hm1.elements = hm.elements ++ [v] := by
      rcases hcase with ⟨hmem, _⟩ | ⟨_, hel⟩
      · exact absurd hmem hfresh
      · exact hel
    have hnd1 : ((hm1.elements ++ rest).map Prod.fst).Nodup := by
      rw [hel1]
      have : (hm.elements ++ [v]) ++ rest = hm.elements ++ (v :: rest) := by simp
      rw [this]
      exact hnd
    obtain ⟨hm', hrun, hinv', hel', hh'⟩ := ih hinv1 hnd1
    refine ⟨hm', ?_, hinv', ?_, hh'.trans hh1⟩
    · rw [List.map_cons, runOps, List.foldlM_cons]
      have hins' : applyOp hm (Op.insert v.1 v.2) = some hm1 := by
        rw [applyOp]
        have hv : (v.1, v.2) = v := rfl
        rw [hv]
        exact hins
      rw [hins']
      exact hrun
    · rw [hel', hel1]
      simp

theorem runOps_erase_list :
    ∀ (ks : List Nat) {hm : HM}, Inv hm → ks.Nodup →
      (∀ k, k ∈ ks → k ∈ keys hm) →
      ∃ hm', runOps hm (ks.map Op.erase) = some hm' ∧ Inv hm' ∧
        hm'.elements.length = hm.elements.length - ks.length ∧
        (∀ k, k ∈ ks → k ∉ keys hm') ∧
        (∀ k v, k ∉ ks → lookup hm k = some v → lookup hm' k = some v) ∧
        (∀ k, k ∈ keys hm' → k ∈ keys hm) := by
  intro ks
  induction ks with
  | nil =>
    intro hm hi _ _
    exact ⟨hm, rfl, hi, by simp, by simp, fun k v _ h => h, fun k h => h⟩
  | cons k0 rest ih =>
    intro hm hi hnd hmem
    have hk0 : k0 ∈ keys hm := hmem k0 (by simp)
    obtain ⟨hm1, herase, hinv1, _, hlen1, habs1, hpres1, hsub1⟩ :=
      erase_key_spec hi hk0
    have hmem1 : ∀ k, k ∈ rest → k ∈ keys hm1 := by
      intro k hkrest
      have hkk0 : k ≠ k0 := by
        intro h
        rw [h] at hkrest
        rw [List.nodup_cons] at hnd
        exact hnd.1 hkrest
      obtain ⟨v, hv⟩ := lookup_isSome_of_mem (hmem k (by simp [hkrest]))
      have hlk := hpres1 k v hkk0 hv
      by_contra hcon
      rw [lookup_eq_none_iff.mpr hcon] at hlk
      exact Option.noConfusion hlk
    obtain ⟨hm', hrun, hinv', hlen', habs', hpres', hsub'⟩ :=
      ih hinv1 (List.nodup_cons.mp hnd).2 hmem1
    have hn1 : 0 < hm.elements.length := by
      obtain ⟨p, e, hp, _⟩ := mem_keys_iff.mp hk0
      have := (List.getElem?_eq_some.mp hp).1
      omega
    refine ⟨hm', ?_, hinv', by simp only [List.length_cons]; omega, ?_, ?_, ?_⟩
    · rw [List.map_cons, runOps, List.foldlM_cons]
      have herase' : applyOp hm (Op.erase k0) = some hm1 := herase
      rw [herase']
      exact hrun
    · intro k hkin
      rcases List.mem_cons.mp hkin with rfl | hkrest
      · intro hcon
        exact habs1 (hsub' k hcon)
      · exact habs' k hkrest
    · intro k v hknotin hl
      have hkk0 : k ≠ k0 := by
        intro h
        exact hknotin (by rw [h]; simp)
      exact hpres' k v (fun h => hknotin (by simp [h])) (hpres1 k v hkk0 hl)
    · intro k hkin
      exact hsub1 k (hsub' k hkin)

end HashMapVerify

namespace HashMapVerify

/-- C1: in every table state reachable by the public operations, the dense
sequence `elements_` never contains two entries with equal keys: each key
occurs at most once. -/
theorem claim1_no_duplicate_keys {hm : HM} (h : Reachable hm) :
    (hm.elements.map Prod.fst).Nodup :=
  (reachable_inv h).core.nodup

theorem claim1_witness :
    Reachable hmEmpty ∧ (hmEmpty.elements.map Prod.fst).Nodup :=
  ⟨⟨idHash, [], [], rfl⟩, claim1_no_duplicate_keys ⟨idHash, [], [], rfl⟩⟩

/-- C2: for every reachable table state and every key, the probing scan
`FindPlace` terminates (it returns a cell within `place_.size()` probes,
where the C++ loop would otherwise run forever), and the returned cell is
either an empty cell with the key absent from the table, or the unique
occupied cell whose dense entry carries the queried key; moreover an empty
cell always exists in `place_`. -/
theorem claim2_findPlace_total_correct {hm : HM} (h : Reachable hm) (k : Nat) :
    (∃ j, FindPlace hm k = some j ∧
      ((hm.place[j]? = some Slot.kNoValue ∧ k ∉ keys hm) ∨
        (∃ (p : Nat) (e : Nat × Nat), hm.place[j]? = some (Slot.occ p) ∧
          hm.elements[p]? = some e ∧ e.1 = k ∧
          ∀ (j2 p2 : Nat) (e2 : Nat × Nat), hm.place[j2]? = some (Slot.occ p2) →
            hm.elements[p2]? = some e2 → e2.1 = k → j2 = j))) ∧
    (∃ s : Nat, hm.place[s]? = some Slot.kNoValue) := by
  have hi := reachable_inv h
  constructor
  · by_cases hk : k ∈ keys hm
    · obtain ⟨p, e, hp, hpe⟩ := mem_keys_iff.mp hk
      obtain ⟨j, hfind, hocc, hrev⟩ := findPlace_mem hi.core (inv_ops_lt hi) hp
      rw [hpe] at hfind
      refine ⟨j, hfind, Or.inr ⟨p, e, hocc, hp, hpe, ?_⟩⟩
      intro j2 p2 e2 hocc2 he2 hk2
      have hp2 : p2 = p := nodup_key_inj hi.core.nodup he2 hp (hk2.trans hpe.symm)
      subst hp2
      obtain ⟨_, hrev2⟩ := hi.core.occ_valid j2 p2 hocc2
      rw [hrev] at hrev2
      exact (Option.some.inj hrev2).symm
    · obtain ⟨j, hfind, hemp⟩ :=
        findPlace_not_mem hi.core (inv_ops_lt hi) (not_mem_keys hk)
      exact ⟨j, hfind, Or.inl ⟨hemp, hk⟩⟩
  · obtain ⟨s, _, hemp⟩ := exists_empty_slot hi.core (inv_ops_lt hi)
    exact ⟨s, hemp⟩

theorem claim2_witness :
    (∃ j, FindPlace hmEmpty 5 = some j ∧
      ((hmEmpty.place[j]? = some Slot.kNoValue ∧ 5 ∉ keys hmEmpty) ∨
        (∃ (p : Nat) (e : Nat × Nat), hmEmpty.place[j]? = some (Slot.occ p) ∧
          hmEmpty.elements[p]? = some e ∧ e.1 = 5 ∧
          ∀ (j2 p2 : Nat) (e2 : Nat × Nat),
            hmEmpty.place[j2]? = some (Slot.occ p2) →
            hmEmpty.elements[p2]? = some e2 → e2.1 = 5 → j2 = j))) ∧
    (∃ s : Nat, hmEmpty.place[s]? = some Slot.kNoValue) :=
  claim2_findPlace_total_correct ⟨idHash, [], [], rfl⟩ 5

/-- C3 counterexample: on a table where key 0 already holds the value 7,
`insert(0, 2)` leaves the table unchanged, so `find(0)` still returns a
handle whose value is 7, not the just-inserted 2 — refuting, at this state,
the claim that after every `insert(k, v)` the handle returned by `find(k)`
holds `v`. -/
theorem claim3_counterexample :
    ∃ hm1 hm2, runOps hmEmpty [Op.insert 0 7] = some hm1 ∧
      applyOp hm1 (Op.insert 0 2) = some hm2 ∧
      (∃ p e, find hm2 0 = some (some p) ∧ hm2.elements[p]? = some e ∧
        e.2 = 7 ∧ e.2 ≠ 2) := by
  refine ⟨⟨idHash, [(0, 7)],
      [Slot.occ 0, Slot.kNoValue, Slot.kNoValue, Slot.kNoValue], [0, 0, 0, 0], 1⟩,
    ⟨idHash, [(0, 7)],
      [Slot.occ 0, Slot.kNoValue, Slot.kNoValue, Slot.kNoValue], [0, 0, 0, 0], 1⟩,
    rfl, rfl, 0, (0, 7), rfl, rfl, rfl, by decide⟩

/-- C3 (amended): for every reachable table, every key k absent from it and
every value v: after `insert(k, v)`, `find(k)` returns a handle whose value
equals v, and this remains true after any further sequence of public
operations none of which erases k (by `erase` or `clear`) or overwrites its
value through the reference returned by `operator[]`. -/
theorem claim3_roundtrip {hm : HM} (h : Reachable hm) {k : Nat} (v : Nat)
    (hk : k ∉ keys hm) (ops : List Op)
    (hsafe : ∀ o, o ∈ ops → touchesB k o = false) :
    ∃ hm1 hm2, insertW (RebuildF 1) hm (k, v) = some hm1 ∧
      runOps hm1 ops = some hm2 ∧
      ∃ (p : Nat) (e : Nat × Nat), find hm2 k = some (some p) ∧
        hm2.elements[p]? = some e ∧ e.2 = v := by
  have hi := reachable_inv h
  obtain ⟨hm1, hins, hinv1, _, hcase, _⟩ := insert_spec hi (k, v)
  have hel1 : hm1.elements = hm.elements ++ [(k, v)] := by
    rcases hcase with ⟨hmem, _⟩ | ⟨_, hel⟩
    · exact absurd hmem hk
    · exact hel
  have hl1 : lookup hm1 k = some v := by
    apply (lookup_eq_some_iff hinv1.core.nodup).mpr
    rw [hel1]
    exact List.mem_append_right _ (by simp)
  obtain ⟨hm2, hrun, hinv2, _⟩ := runOps_inv hinv1
  have hl2 : lookup hm2 k = some v := runOps_preserves hinv1 hsafe hl1 hrun
  obtain ⟨p, hp⟩ := lookup_getElem hinv2 hl2
  refine ⟨hm1, hm2, hins, hrun, p, (k, v), ?_, hp, rfl⟩
  exact find_mem hinv2 hp

theorem claim3_witness :
    ∃ hm1 hm2, insertW (RebuildF 1) hmEmpty (3, 5) = some hm1 ∧
      runOps hm1 [Op.insert 4 6, Op.findOp 3] = some hm2 ∧
      ∃ (p : Nat) (e : Nat × Nat), find hm2 3 = some (some p) ∧
        hm2.elements[p]? = some e ∧ e.2 = 5 :=
  claim3_roundtrip ⟨idHash, [], [], rfl⟩ 5 (by decide)
    [Op.insert 4 6, Op.findOp 3] (by decide)

/-- C5 counterexample: on a table where key 0 already holds the value 7,
`insert(0, 1)` followed by `insert(0, 2)` leaves the stored value 7 — not
v1 = 1 — refuting, at this state, the claim that the pair of inserts always
leaves the value at v1. -/
theorem claim5_counterexample :
    ∃ hm1 hm2 hm3, runOps hmEmpty [Op.insert 0 7] = some hm1 ∧
      applyOp hm1 (Op.insert 0 1) = some hm2 ∧
      applyOp hm2 (Op.insert 0 2) = some hm3 ∧
      lookup hm3 0 = some 7 ∧ lookup hm3 0 ≠ some 1 := by
  refine ⟨⟨idHash, [(0, 7)],
      [Slot.occ 0, Slot.kNoValue, Slot.kNoValue, Slot.kNoValue], [0, 0, 0, 0], 1⟩,
    ⟨idHash, [(0, 7)],
      [Slot.occ 0, Slot.kNoValue, Slot.kNoValue, Slot.kNoValue], [0, 0, 0, 0], 1⟩,
    ⟨idHash, [(0, 7)],
      [Slot.occ 0, Slot.kNoValue, Slot.kNoValue, Slot.kNoValue], [0, 0, 0, 0], 1⟩,
    rfl, rfl, rfl, rfl, by decide⟩

/-- C5 (amended): inserting an already-present key is a no-op that never
overwrites the stored value — the whole state is unchanged; consequently for
a key k absent from the table, `insert(k, v1)` followed by `insert(k, v2)`
leaves the value stored for k equal to v1. -/
theorem claim5_insert_no_overwrite {hm : HM} (h : Reachable hm) (k v1 v2 w : Nat) :
    (∀ (p : Nat) (e : Nat × Nat), hm.elements[p]? = some e →
      insertW (RebuildF 1) hm (e.1, w) = some hm) ∧
    (k ∉ keys hm →
      ∃ hm1 hm2, insertW (RebuildF 1) hm (k, v1) = some hm1 ∧
        insertW (RebuildF 1) hm1 (k, v2) = some hm2 ∧
        lookup hm2 k = some v1) := by
  have hi := reachable_inv h
  constructor
  · intro p e hp
    exact insert_mem_noop hi.core (inv_ops_lt hi) hp w _
  · intro hk
    obtain ⟨hm1, hins, hinv1, _, hcase, _⟩ := insert_spec hi (k, v1)
    have hel1 : hm1.elements = hm.elements ++ [(k, v1)] := by
      rcases hcase with ⟨hmem, _⟩ | ⟨_, hel⟩
      · exact absurd hmem hk
      · exact hel
    have hl1 : lookup hm1 k = some v1 := by
      apply (lookup_eq_some_iff hinv1.core.nodup).mpr
      rw [hel1]
      exact List.mem_append_right _ (by simp)
    obtain ⟨p, hp⟩ := lookup_getElem hinv1 hl1
    have hnoop : insertW (RebuildF 1) hm1 ((k, v1).1, v2) = some hm1 :=
      insert_mem_noop hinv1.core (inv_ops_lt hinv1) hp v2 _
    exact ⟨hm1, hm1, hins, hnoop, hl1⟩

theorem claim5_witness :
    (∀ (p : Nat) (e : Nat × Nat), hmEmpty.elements[p]? = some e →
      insertW (RebuildF 1) hmEmpty (e.1, 9) = some hmEmpty) ∧
    (0 ∉ keys hmEmpty →
      ∃ hm1 hm2, insertW (RebuildF 1) hmEmpty (0, 1) = some hm1 ∧
        insertW (RebuildF 1) hm1 (0, 2) = some hm2 ∧
        lookup hm2 0 = some 1) :=
  claim5_insert_no_overwrite ⟨idHash, [], [], rfl⟩ 0 1 2 9

/-- C6: `at(key)` fails (throws `std::out_of_range`, modelled as the inner
`none`) exactly when the key is absent; when the key is present it returns
the stored value; `at` is a const method, so running it leaves the state
unchanged; and it is the only operation with a checked failure path — on
reachable states `insert`, `erase`, `find`, `operator[]` (read or write) and
`clear` all succeed on every input. -/
theorem claim6_at_error {hm : HM} (h : Reachable hm) (k v : Nat) :
    ((at_ hm k = some none) ↔ k ∉ keys hm) ∧
    (∀ w, lookup hm k = some w → at_ hm k = some (some w)) ∧
    runOps hm [Op.atOp k] = some hm ∧
    (∃ h1, insertW (RebuildF 1) hm (k, v) = some h1) ∧
    (∃ h2, eraseKey hm k = some h2) ∧
    (∃ r, find hm k = some r) ∧
    (∃ (h3 : HM) (q : Nat), indexLoc hm k = some (h3, q)) ∧
    (∃ h4, indexAssign hm k v = some h4) ∧
    (∃ h5, clear hm = some h5) := by
  have hi := reachable_inv h
  refine ⟨⟨?_, fun hk => at_absent hi hk⟩, ?_, rfl, ?_, ?_, ?_, ?_, ?_, ?_⟩
  · intro hat hk
    obtain ⟨p, e, hp, hpe⟩ := mem_keys_iff.mp hk
    have := at_mem hi hp
    rw [hpe, hat] at this
    exact Option.noConfusion (Option.some.inj this)
  · intro w hl
    obtain ⟨p, hp⟩ := lookup_getElem hi hl
    exact at_mem hi hp
  · obtain ⟨h1, hins, _, _, _, _⟩ := insert_spec hi (k, v)
    exact ⟨h1, hins⟩
  · by_cases hk : k ∈ keys hm
    · obtain ⟨p, e, hp, hpe⟩ := mem_keys_iff.mp hk
      obtain ⟨h2, herase, _, _, _, _, _⟩ := erase_mem hi hp
      rw [hpe] at herase
      exact ⟨h2, herase⟩
    · exact ⟨hm, erase_absent hi hk⟩
  · by_cases hk : k ∈ keys hm
    · obtain ⟨p, e, hp, hpe⟩ := mem_keys_iff.mp hk
      refine ⟨some p, ?_⟩
      rw [← hpe]
      exact find_mem hi hp
    · exact ⟨none, find_absent hi hk⟩
  · by_cases hk : k ∈ keys hm
    · obtain ⟨p, e, hp, hpe⟩ := mem_keys_iff.mp hk
      refine ⟨hm, p, ?_⟩
      rw [← hpe]
      exact indexLoc_mem hi hp
    · obtain ⟨h3, hloc, _, _, _, _⟩ := indexLoc_fresh hi hk
      exact ⟨h3, hm.elements.length, hloc⟩
  · obtain ⟨h4, hia, _, _, _, _, _⟩ := indexAssign_spec hi k v
    exact ⟨h4, hia⟩
  · obtain ⟨h5, hcl, _, _, _, _⟩ := clear_spec hm
    exact ⟨h5, hcl⟩

theorem claim6_witness :
    ((at_ hmEmpty 1 = some none) ↔ 1 ∉ keys hmEmpty) ∧
    (∀ w, lookup hmEmpty 1 = some w → at_ hmEmpty 1 = some (some w)) ∧
    runOps hmEmpty [Op.atOp 1] = some hmEmpty ∧
    (∃ h1, insertW (RebuildF 1) hmEmpty (1, 2) = some h1) ∧
    (∃ h2, eraseKey hmEmpty 1 = some h2) ∧
    (∃ r, find hmEmpty 1 = some r) ∧
    (∃ (h3 : HM) (q : Nat), indexLoc hmEmpty 1 = some (h3, q)) ∧
    (∃ h4, indexAssign hmEmpty 1 2 = some h4) ∧
    (∃ h5, clear hmEmpty = some h5) :=
  claim6_at_error ⟨idHash, [], [], rfl⟩ 1 2

/-- C7: `operator[]` on a key absent from a reachable table inserts the
entry `(key, default value 0)`, re-resolves the key after the insertion, and
returns a reference to the dense entry that actually holds the key (here at
dense position `size()` before the call); mutating through that reference
and then calling `at(key)` observes the mutated value. -/
theorem claim7_index_default {hm : HM} (h : Reachable hm) {k : Nat} (v : Nat)
    (hk : k ∉ keys hm) :
    ∃ hm1, indexLoc hm k = some (hm1, hm.elements.length) ∧
      hm1.elements[hm.elements.length]? = some (k, 0) ∧
      lookup hm1 k = some 0 ∧
      (∃ hm2, indexAssign hm k v = some hm2 ∧ at_ hm2 k = some (some v)) := by
  have hi := reachable_inv h
  obtain ⟨hm1, hloc, hinv1, _, hel1, _⟩ := indexLoc_fresh hi hk
  have hatn : hm1.elements[hm.elements.length]? = some (k, 0) := by
    rw [hel1]
    exact List.getElem?_concat_length _ _
  refine ⟨hm1, hloc, hatn, ?_, ?_⟩
  · exact (lookup_eq_some_iff hinv1.core.nodup).mpr
      (List.mem_iff_getElem?.mpr ⟨hm.elements.length, hatn⟩)
  · obtain ⟨hm2, hia, hinv2, _, hl2, _, _⟩ := indexAssign_spec hi k v
    obtain ⟨p, hp⟩ := lookup_getElem hinv2 hl2
    exact ⟨hm2, hia, at_mem hinv2 hp⟩

theorem claim7_witness :
    ∃ hm1, indexLoc hmEmpty 0 = some (hm1, hmEmpty.elements.length) ∧
      hm1.elements[hmEmpty.elements.length]? = some (0, 0) ∧
      lookup hm1 0 = some 0 ∧
      (∃ hm2, indexAssign hmEmpty 0 42 = some hm2 ∧
        at_ hm2 0 = some (some 42)) :=
  claim7_index_default ⟨idHash, [], [], rfl⟩ 42 (by decide)

/-- C8 counterexample: after inserting keys 0 and 1 and erasing 0 from an
empty table, the state is reachable, holds n = 1 element, and has
`place_.size() = 8 > kDensity² · n = 4` — refuting the claimed bound
m ≤ kDensity²·n outside the n = 0 case. -/
theorem claim8_counterexample :
    ∃ hm', runOps hmEmpty [Op.insert 0 0, Op.insert 1 0, Op.erase 0] = some hm' ∧
      hm'.elements.length = 1 ∧ hm'.place.length = 8 ∧
      ¬ (hm'.place.length ≤ kSizeChange * hm'.elements.length) := by
  refine ⟨⟨idHash, [(1, 0)],
      [Slot.kDeleted, Slot.occ 0, Slot.kNoValue, Slot.kNoValue, Slot.kNoValue,
        Slot.kNoValue, Slot.kNoValue, Slot.kNoValue],
      [1, 1, 0, 0, 0, 0, 0, 0], 2⟩, rfl, rfl, rfl, by decide⟩

/-- C8 (amended): after every public operation the capacity obeys the weaker
bound m ≤ kDensity²·kDensity·n (that is, m ≤ 8n), except in the
single-empty-table case n = 0, m = 1; and the shrink check rebuilds exactly
when m > n·kDensity²·kDensity after a deletion. -/
theorem claim8_density_bound {hm : HM} (h : Reachable hm) :
    (hm.place.length ≤ hm.elements.length * kSizeChange * kDensity ∨
      (hm.elements.length = 0 ∧ hm.place.length = 1)) ∧
    (∀ s : HM,
      (s.elements.length * kSizeChange * kDensity < s.place.length →
        MakeGoodSmall s = RebuildF 1 s) ∧
      (s.place.length ≤ s.elements.length * kSizeChange * kDensity →
        MakeGoodSmall s = some s)) :=
  ⟨(reachable_inv h).sizeBound,
    fun s => ⟨fun hc => makeGoodSmall_fire hc, fun hc => makeGoodSmall_skip hc⟩⟩

theorem claim8_witness :
    (hmEmpty.place.length ≤ hmEmpty.elements.length * kSizeChange * kDensity ∨
      (hmEmpty.elements.length = 0 ∧ hmEmpty.place.length = 1)) ∧
    (∀ s : HM,
      (s.elements.length * kSizeChange * kDensity < s.place.length →
        MakeGoodSmall s = RebuildF 1 s) ∧
      (s.place.length ≤ s.elements.length * kSizeChange * kDensity →
        MakeGoodSmall s = some s)) :=
  claim8_density_bound ⟨idHash, [], [], rfl⟩

/-- C9: Rebuild, run on a reachable table with n entries, produces a table of
capacity max(1, n·kDensity²) whose operations counter is n (reset to 0, then
one increment per reinsertion) and which has exactly n non-empty cells; the
re-insertions never trigger a nested rebuild — the rebuild procedure handed
to them is never invoked, so the result is the same for every such
procedure, including the one that always fails; and every public operation
either leaves `place_.size()` unchanged or (by rebuilding) sets it to the
rebuild capacity formula — Rebuild is the only mechanism that changes it. -/
theorem claim9_rebuild {hm : HM} (h : Reachable hm) :
    ∃ hm', (∀ f, RebuildW f hm = some hm') ∧ RebuildF 1 hm = some hm' ∧
      hm'.place.length = max 1 (hm.elements.length * kSizeChange) ∧
      hm'.operations_complete = hm.elements.length ∧
      (hm'.place.filter (fun sl => sl ≠ Slot.kNoValue)).length =
        hm.elements.length ∧
      (∀ o hm2, applyOp hm o = some hm2 →
        hm2.place.length = hm.place.length ∨
        hm2.place.length = (if hm2.elements.length = 0 then 1
          else hm2.elements.length * kSizeChange)) := by
  have hi := reachable_inv h
  obtain ⟨hm', hall, _, _, _, hops', hpl', _, hcount'⟩ := rebuild_total hi.core.nodup
  refine ⟨hm', hall, hall _, ?_, hops', hcount', ?_⟩
  · rw [hpl']
    rcases Nat.eq_zero_or_pos hm.elements.length with h0 | hpos
    · rw [h0]
      simp
    · rw [if_neg (by omega)]
      have h4 : kSizeChange = 4 := rfl
      rw [h4]
      omega
  · intro o hm2 hap
    obtain ⟨hm2', hap', _, _, hfr⟩ := applyOp_spec hi o
    rw [hap'] at hap
    cases Option.some.inj hap
    exact hfr

theorem claim9_witness :
    ∃ hm', (∀ f, RebuildW f hmEmpty = some hm') ∧ RebuildF 1 hmEmpty = some hm' ∧
      hm'.place.length = max 1 (hmEmpty.elements.length * kSizeChange) ∧
      hm'.operations_complete = hmEmpty.elements.length ∧
      (hm'.place.filter (fun sl => sl ≠ Slot.kNoValue)).length =
        hmEmpty.elements.length ∧
      (∀ o hm2, applyOp hmEmpty o = some hm2 →
        hm2.place.length = hmEmpty.place.length ∨
        hm2.place.length = (if hm2.elements.length = 0 then 1
          else hm2.elements.length * kSizeChange)) :=
  claim9_rebuild ⟨idHash, [], [], rfl⟩

/-- C10: Rebuild leaves the dense sequence unchanged — the rebuilt table has
exactly the same key-value entries in exactly the same dense order, and the
same hash function, regardless of which nested-rebuild procedure the
re-insertions would use; only the slot array, the reverse map and the
operations counter are rebuilt. -/
theorem claim10_rebuild_frame {hm : HM} (h : Reachable hm) :
    ∃ hm', (∀ f, RebuildW f hm = some hm') ∧ RebuildF 1 hm = some hm' ∧
      hm'.elements = hm.elements ∧ hm'.hasher = hm.hasher := by
  have hi := reachable_inv h
  obtain ⟨hm', hall, _, hel', hh', _, _, _, _⟩ := rebuild_total hi.core.nodup
  exact ⟨hm', hall, hall _, hel', hh'⟩

theorem claim10_witness :
    ∃ hm', (∀ f, RebuildW f hmEmpty = some hm') ∧
      RebuildF 1 hmEmpty = some hm' ∧
      hm'.elements = hmEmpty.elements ∧ hm'.hasher = hmEmpty.hasher :=
  claim10_rebuild_frame ⟨idHash, [], [], rfl⟩

end HashMapVerify

namespace HashMapVerify

theorem runOps_append (hm : HM) (a b : List Op) :
    runOps hm (a ++ b) = (runOps hm a).bind (fun h => runOps h b) := by
  rw [runOps, List.foldlM_append]
  rcases h : List.foldlM applyOp hm a with _ | hm1
  · rw [runOps, h]
    rfl
  · rw [runOps, h]
    rfl

/-- C4: starting from an empty table with any hash function, inserting the
keys 1..1000 and then erasing every even key leaves `size() = 500`, `find`
on every even key in range returns `end()` (the key is absent), and `find`
on every odd key in range still locates an entry carrying that key — the
probe chains that pass through the tombstones left by the 500 deletions
still reach their entries. -/
theorem claim4_scenarioB (hasher : Nat → Nat) :
    ∃ hm0 hm', emptyTable hasher = some hm0 ∧
      runOps hm0 (insOps ++ delOps) = some hm' ∧
      size hm' = 500 ∧
      (∀ k, 1 ≤ k → k ≤ 1000 → k % 2 = 0 → find hm' k = some none) ∧
      (∀ k, 1 ≤ k → k ≤ 1000 → k % 2 = 1 →
        ∃ (p : Nat) (e : Nat × Nat), find hm' k = some (some p) ∧
          hm'.elements[p]? = some e ∧ e.1 = k) := by
  obtain ⟨hm0, hemp, hinv0, _, hel0, _⟩ := emptyTable_spec hasher
  set ps : List (Nat × Nat) := (List.range 1000).map (fun i => (i + 1, 0)) with hps
  have hinsOps : insOps = ps.map (fun e => Op.insert e.1 e.2) := by
    rw [insOps, hps, List.map_map]
    rfl
  have hpsfst : ps.map Prod.fst = (List.range 1000).map (fun i => i + 1) := by
    rw [hps, List.map_map]
    rfl
  have hndps : ((hm0.elements ++ ps).map Prod.fst).Nodup := by
    rw [hel0]
    simp only [List.nil_append]
    rw [hpsfst]
    exact (List.nodup_range 1000).map (fun a b h => by omega)
  obtain ⟨hm1, hrun1, hinv1, hel1, _⟩ := runOps_insert_list ps hinv0 hndps
  have hel1' : hm1.elements = ps := by
    rw [hel1, hel0]
    rfl
  have hlen1 : hm1.elements.length = 1000 := by
    rw [hel1', hps]
    simp
  have hmem_ps : ∀ k, 1 ≤ k → k ≤ 1000 → (k, 0) ∈ ps := by
    intro k h1 h2
    rw [hps]
    apply List.mem_map.mpr
    refine ⟨k - 1, List.mem_range.mpr (by omega), ?_⟩
    have h3 : k - 1 + 1 = k := by omega
    rw [h3]
  have hlookup1 : ∀ k, 1 ≤ k → k ≤ 1000 → lookup hm1 k = some 0 := by
    intro k h1 h2
    apply (lookup_eq_some_iff hinv1.core.nodup).mpr
    rw [hel1']
    exact hmem_ps k h1 h2
  have hkeys1 : ∀ k, 1 ≤ k → k ≤ 1000 → k ∈ keys hm1 := by
    intro k h1 h2
    rw [keys, hel1']
    exact List.mem_map.mpr ⟨(k, 0), hmem_ps k h1 h2, rfl⟩
  set ks : List Nat := (List.range 500).map (fun i => 2 * i + 2) with hks
  have hdelOps : delOps = ks.map Op.erase := by
    rw [delOps, hks, List.map_map]
    rfl
  have hndks : ks.Nodup := by
    rw [hks]
    exact (List.nodup_range 500).map (fun a b h => by omega)
  have hmem_ks : ∀ k, k ∈ ks ↔ (k % 2 = 0 ∧ 2 ≤ k ∧ k ≤ 1000) := by
    intro k
    rw [hks]
    simp only [List.mem_map, List.mem_range]
    constructor
    · rintro ⟨i, hi, rfl⟩
      omega
    · rintro ⟨he, h2, h10⟩
      exact ⟨k / 2 - 1, by omega, by omega⟩
  have hksmem : ∀ k, k ∈ ks → k ∈ keys hm1 := by
    intro k hk
    obtain ⟨he, h2, h10⟩ := (hmem_ks k).mp hk
    exact hkeys1 k (by omega) h10
  obtain ⟨hm', hrun2, hinv', hlen', habs', hpres', _⟩ :=
    runOps_erase_list ks hinv1 hndks hksmem
  refine ⟨hm0, hm', hemp, ?_, ?_, ?_, ?_⟩
  · rw [runOps_append, hinsOps, hrun1, hdelOps]
    exact hrun2
  · show hm'.elements.length = 500
    rw [hlen', hlen1, hks]
    simp
  · intro k h1 h2 heven
    have hkks : k ∈ ks := (hmem_ks k).mpr ⟨heven, by omega, h2⟩
    exact find_absent hinv' (habs' k hkks)
  · intro k h1 h2 hodd
    have hknot : k ∉ ks := by
      intro hk
      obtain ⟨he, _, _⟩ := (hmem_ks k).mp hk
      omega
    have hl' : lookup hm' k = some 0 := hpres' k 0 hknot (hlookup1 k h1 h2)
    obtain ⟨p, hp⟩ := lookup_getElem hinv' hl'
    exact ⟨p, (k, 0), find_mem hinv' hp, hp, rfl⟩

end HashMapVerify

namespace HashMapVerify

theorem claim4_witness :
    ∃ hm0 hm', emptyTable idHash = some hm0 ∧
      runOps hm0 (insOps ++ delOps) = some hm' ∧
      size hm' = 500 ∧
      (∀ k, 1 ≤ k → k ≤ 1000 → k % 2 = 0 → find hm' k = some none) ∧
      (∀ k, 1 ≤ k → k ≤ 1000 → k % 2 = 1 →
        ∃ (p : Nat) (e : Nat × Nat), find hm' k = some (some p) ∧
          hm'.elements[p]? = some e ∧ e.1 = k) :=
  claim4_scenarioB idHash

end HashMapVerify
